import Mathlib

/-
Verification development for the r-packet propagation core of a Monte Carlo
radiative transfer code (supernova / kilonova ejecta).

The C++ sources are shallowly embedded: machine doubles are modelled as exact
rationals, external collaborators (model grid queries, atomic data, RNG draws,
transcendental kernels such as exp and sqrt) are fields of an environment
record, and global per-thread state (opacity cache, phixs scratch) is passed
explicitly.  Functions whose defining file is absent from the source snapshot
(vector utilities, packet movement, coherent scattering) are modelled from the
design document and marked as such in their doc comments.
-/

namespace Artis

/-- Rest-frame speed of light in cm/s, an exact rational (sn3d header). -/
def CLIGHT : ℚ := 2.99792458e10

/-- Propagation speed of light; physically equal to CLIGHT (constants header). -/
def CLIGHT_PROP : ℚ := CLIGHT

/-- Constant c squared over 2h (sn3d header). -/
def CLIGHTSQUAREDOVERTWOH : ℚ := 6.7819570e46

/-- Constant h c / (4 pi) (sn3d header). -/
def HCLIGHTOVERFOURPI : ℚ := 1.580764662876770e-17

/-- Thomson cross-section (sn3d header). -/
def SIGMA_T : ℚ := 6.6524e-25

/-- Packet type tag for r-packets (sn3d header). -/
def TYPE_RPKT : ℤ := 11

/-- Packet type tag for k-packets (sn3d header). -/
def TYPE_KPKT : ℤ := 12

/-- Packet type tag for macro-atoms (sn3d header). -/
def TYPE_MA : ℤ := 13

/-- Sentinel for no last-crossed cell boundary (sn3d header). -/
def NONE : ℤ := 107

/-- Event type tag for bound-bound events (sn3d header). -/
def RPKT_EVENTTYPE_BB : ℤ := 550

/-- Event type tag for continuum events (sn3d header). -/
def RPKT_EVENTTYPE_CONT : ℤ := 551

/-- Build-time configuration flag: the non-relativistic Doppler build is
modelled (the relativistic branch involves irrational square roots). -/
def USE_RELATIVISTIC_DOPPLER_SHIFT : Bool := false

/-- Build-time configuration flag for detailed line estimators; the default
(disabled) build is modelled.  The flag only triggers an estimator update of
the external radiation-field module inside get_event. -/
def DETAILED_LINE_ESTIMATORS_ON : Bool := false

/-- One entry of the process-wide sorted linelist (descending nu). -/
structure Line where
  nu : ℚ
  elementindex : ℤ
  ionindex : ℤ
  upperlevelindex : ℤ
  lowerlevelindex : ℤ
deriving DecidableEq, Inhabited

/-- Frequency of linelist entry i (total lookup with a default entry,
standing for the C array access linelist[i].nu). -/
def nuAt (ll : List Line) (i : ℕ) : ℚ :=
  (ll.getD i default).nu

/-- Number of leading elements of a list satisfying p.  This is the offset
returned by std::lower_bound on a partitioned range: the first position where
the comparison predicate turns false. -/
def lbCount {α : Type} (p : α → Bool) : List α → ℕ
  | [] => 0
  | a :: as => if p a then lbCount p as + 1 else 0

/-- Index computed by std::lower_bound over linelist[start..nlines) with the
comparator (line < nu) := not (line.nu <= nu), i.e. the first index at or
after start whose frequency is at most nu_cmf. -/
def lowerBoundIdx (ll : List Line) (start : ℕ) (nu_cmf : ℚ) : ℕ :=
  start + lbCount (fun line => decide (nu_cmf < line.nu)) (ll.drop start)

/-- Embedding of closest_transition from the current rpkt translation unit
(the std::lower_bound version): find the next transition index redder than
nu_cmf, starting the search at next_trans; -1 flags that no transition can be
reached. -/
def closest_transition (ll : List Line) (nu_cmf : ℚ) (next_trans : ℤ) : ℤ :=
  let right : ℤ := (ll.length : ℤ) - 1
  if nu_cmf < nuAt ll right.toNat then -1
  else if next_trans > right then -1
  else if next_trans > 0 then next_trans
  else if nuAt ll 0 ≤ nu_cmf then 0
  else ((lowerBoundIdx ll next_trans.toNat nu_cmf : ℕ) : ℤ)

/-- Hand-coded binary-search loop of the legacy closest_transition
implementation.  The search narrows [left, right] around the first index whose
frequency is at most nu_cmf; middle carries the last probed index (initially 1)
and is returned when the window empties without a break. -/
def ctSearchLoop (ll : List Line) (nu_cmf : ℚ) (left right middle : ℤ) : ℤ :=
  if _h : left ≤ right then
    if nuAt ll (left + (right - left) / 2).toNat ≤ nu_cmf ∧
        nu_cmf < nuAt ll (left + (right - left) / 2 - 1).toNat then
      left + (right - left) / 2
    else if nuAt ll (left + (right - left) / 2).toNat ≤ nu_cmf then
      ctSearchLoop ll nu_cmf left (left + (right - left) / 2 - 1) (left + (right - left) / 2)
    else ctSearchLoop ll nu_cmf (left + (right - left) / 2 + 1) right (left + (right - left) / 2)
  else middle
termination_by (right + 1 - left).toNat
decreasing_by
  · omega
  · omega

/-- Embedding of the legacy closest_transition implementation (explicit
binary-search loop instead of std::lower_bound). -/
def closest_transition_v2 (ll : List Line) (nu_cmf : ℚ) (next_trans : ℤ) : ℤ :=
  let left : ℤ := next_trans
  let right : ℤ := (ll.length : ℤ) - 1
  if nu_cmf < nuAt ll right.toNat then -1
  else if left > right then -1
  else if left > 0 then left
  else if nuAt ll 0 ≤ nu_cmf then 0
  else ctSearchLoop ll nu_cmf left right 1

/-- The lower-bound count never exceeds the list length. -/
lemma lbCount_le {α : Type} (p : α → Bool) (l : List α) : lbCount p l ≤ l.length := by
  induction l with
  | nil => simp [lbCount]
  | cons a as ih =>
      simp only [lbCount, List.length_cons]
      split <;> omega

/-- Every position strictly before the lower-bound count satisfies p. -/
lemma lbCount_true {α : Type} [Inhabited α] (p : α → Bool) (l : List α) :
    ∀ j < lbCount p l, p (l.getD j default) = true := by
  induction l with
  | nil => simp [lbCount]
  | cons a as ih =>
      intro j hj
      simp only [lbCount] at hj
      by_cases hpa : p a
      · cases j with
        | zero => simpa using hpa
        | succ k =>
            simp only [hpa, if_true] at hj
            simpa using ih k (by omega)
      · simp [hpa] at hj

/-- The position at the lower-bound count itself fails p (when in range). -/
lemma lbCount_false {α : Type} [Inhabited α] (p : α → Bool) (l : List α)
    (h : lbCount p l < l.length) : p (l.getD (lbCount p l) default) = false := by
  induction l with
  | nil => simp [lbCount] at h
  | cons a as ih =>
      by_cases hpa : p a
      · simp only [lbCount, hpa, if_true] at h ⊢
        simpa using ih (by simpa using h)
      · simp [lbCount, hpa]

/-- Drop-based lookup agreement used to transfer lbCount facts to the full
list: element j of (drop s l) is element s+j of l. -/
lemma getD_drop {α : Type} [Inhabited α] (l : List α) (s j : ℕ) :
    (l.drop s).getD j default = l.getD (s + j) default := by
  induction l generalizing s with
  | nil => simp
  | cons a as ih =>
      cases s with
      | zero => simp
      | succ t =>
          simp only [List.drop, Nat.succ_add, List.getD_cons_succ]
          exact ih t

/-- DescSorted means the linelist frequencies are non-increasing. -/
def DescSorted (ll : List Line) : Prop :=
  List.Chain' (fun a b => b.nu ≤ a.nu) ll

/-- StrictDescSorted means the linelist frequencies are strictly decreasing. -/
def StrictDescSorted (ll : List Line) : Prop :=
  List.Chain' (fun a b => b.nu < a.nu) ll

instance (ll : List Line) : Decidable (DescSorted ll) :=
  inferInstanceAs (Decidable (List.Chain' _ ll))

instance (ll : List Line) : Decidable (StrictDescSorted ll) :=
  inferInstanceAs (Decidable (List.Chain' _ ll))

lemma StrictDescSorted.desc {ll : List Line} (h : StrictDescSorted ll) : DescSorted ll := by
  unfold DescSorted
  exact List.Chain'.imp (fun a b hab => le_of_lt hab) h

/-- Antitonicity of nuAt over a descending-sorted linelist. -/
lemma nuAt_anti {ll : List Line} (h : DescSorted ll) {i j : ℕ}
    (hij : i ≤ j) (hj : j < ll.length) : nuAt ll j ≤ nuAt ll i := by
  rcases eq_or_lt_of_le hij with rfl | hlt
  · exact le_refl _
  · haveI : IsTrans Line (fun a b => b.nu ≤ a.nu) := ⟨fun _ _ _ h1 h2 => le_trans h2 h1⟩
    have hp : List.Pairwise (fun a b => b.nu ≤ a.nu) ll :=
      (List.chain'_iff_pairwise.mp h)
    have hi : i < ll.length := lt_trans hlt hj
    have hij' := (List.pairwise_iff_get.mp hp) ⟨i, hi⟩ ⟨j, hj⟩ (by simpa using hlt)
    have hgi : ll.getD i default = ll.get ⟨i, hi⟩ := by
      simp [List.getD_eq_getElem?_getD, List.getElem?_eq_getElem hi, List.get_eq_getElem]
    have hgj : ll.getD j default = ll.get ⟨j, hj⟩ := by
      simp [List.getD_eq_getElem?_getD, List.getElem?_eq_getElem hj, List.get_eq_getElem]
    unfold nuAt
    rw [hgi, hgj]
    exact hij'

/-- A lower-bound search starting at s returns an index at least s. -/
lemma lowerBoundIdx_ge (ll : List Line) (s : ℕ) (nu : ℚ) : s ≤ lowerBoundIdx ll s nu :=
  Nat.le_add_right _ _

/-- A lower-bound search starting inside the list returns an index at most the
list length. -/
lemma lowerBoundIdx_le (ll : List Line) (s : ℕ) (nu : ℚ) (hs : s ≤ ll.length) :
    lowerBoundIdx ll s nu ≤ ll.length := by
  have h := lbCount_le (fun line => decide (nu < line.nu)) (ll.drop s)
  simp only [List.length_drop] at h
  unfold lowerBoundIdx
  omega

/-- Every index from the start of the search up to (excluding) the returned
lower-bound index has frequency strictly above nu. -/
lemma lowerBoundIdx_before (ll : List Line) (s : ℕ) (nu : ℚ) :
    ∀ j, s ≤ j → j < lowerBoundIdx ll s nu → nu < nuAt ll j := by
  intro j hsj hj
  unfold lowerBoundIdx at hj
  have h1 : j - s < lbCount (fun line => decide (nu < line.nu)) (ll.drop s) := by omega
  have h2 := lbCount_true (fun line => decide (nu < line.nu)) (ll.drop s) (j - s) h1
  rw [getD_drop] at h2
  have hsj' : s + (j - s) = j := by omega
  rw [hsj'] at h2
  simpa [nuAt] using h2

/-- The returned lower-bound index, when inside the list, has frequency at
most nu. -/
lemma lowerBoundIdx_at (ll : List Line) (s : ℕ) (nu : ℚ)
    (h : lowerBoundIdx ll s nu < ll.length) :
    nuAt ll (lowerBoundIdx ll s nu) ≤ nu := by
  unfold lowerBoundIdx at h ⊢
  have hlen : lbCount (fun line => decide (nu < line.nu)) (ll.drop s) < (ll.drop s).length := by
    simp only [List.length_drop]
    omega
  have h2 := lbCount_false (fun line => decide (nu < line.nu)) (ll.drop s) hlen
  rw [getD_drop] at h2
  simp only [nuAt]
  simpa [nuAt] using h2

/-- When the reddest (last) line frequency is at most nu, the lower-bound
search from the start lands strictly inside the list. -/
lemma lowerBoundIdx_lt_length (ll : List Line) (nu : ℚ) (hlen : 1 ≤ ll.length)
    (hred : nuAt ll (ll.length - 1) ≤ nu) : lowerBoundIdx ll 0 nu < ll.length := by
  have hle := lowerBoundIdx_le ll 0 nu (Nat.zero_le _)
  rcases Nat.lt_or_ge (lowerBoundIdx ll 0 nu) ll.length with h | h
  · exact h
  · have heq : ll.length - 1 < lowerBoundIdx ll 0 nu := by omega
    have hb := lowerBoundIdx_before ll 0 nu (ll.length - 1) (Nat.zero_le _) heq
    linarith

/-- A nonempty list whose head satisfies p has positive lower-bound count. -/
lemma lbCount_pos {α : Type} [Inhabited α] (p : α → Bool) (l : List α)
    (hl : l ≠ []) (hp : p (l.getD 0 default) = true) : 1 ≤ lbCount p l := by
  cases l with
  | nil => exact absurd rfl hl
  | cons a as =>
      simp only [List.getD_cons_zero] at hp
      simp [lbCount, hp]

/-- Branch analysis of closest_transition: the result is the no-line flag, the
monotonicity short-circuit, the bluest line, or a lower-bound search result. -/
lemma closest_transition_cases (ll : List Line) (nu : ℚ) (k : ℤ) :
    closest_transition ll nu k = -1 ∨
    (0 < k ∧ k ≤ (ll.length : ℤ) - 1 ∧ closest_transition ll nu k = k) ∨
    (k ≤ 0 ∧ k ≤ (ll.length : ℤ) - 1 ∧ nuAt ll 0 ≤ nu ∧ closest_transition ll nu k = 0) ∨
    (k ≤ 0 ∧ k ≤ (ll.length : ℤ) - 1 ∧
      closest_transition ll nu k = ((lowerBoundIdx ll k.toNat nu : ℕ) : ℤ)) := by
  simp only [closest_transition]
  split_ifs with h1 h2 h3 h4
  · exact Or.inl rfl
  · exact Or.inl rfl
  · exact Or.inr (Or.inl ⟨h3, by omega, rfl⟩)
  · exact Or.inr (Or.inr (Or.inl ⟨by omega, by omega, h4, rfl⟩))
  · exact Or.inr (Or.inr (Or.inr ⟨by omega, by omega, rfl⟩))

/-- A non-negative closest_transition result is at least the starting index,
which in turn is at most nlines - 1 (used for loop termination and the
monotonicity invariant). -/
lemma closest_transition_ge (ll : List Line) (nu : ℚ) (k : ℤ)
    (h : 0 ≤ closest_transition ll nu k) :
    k ≤ closest_transition ll nu k ∧ k ≤ (ll.length : ℤ) - 1 := by
  rcases closest_transition_cases ll nu k with hc | hc | hc | hc
  · omega
  · omega
  · omega
  · rcases hc with ⟨hk0, hklen, heq⟩
    rw [heq]
    have := lowerBoundIdx_ge ll k.toNat nu
    omega

/-- C3: for a linelist sorted by descending nu, closest_transition with
next_trans = 0 returns -1 when nu_cmf is below the reddest (last) line, 0 when
nu_cmf is at or above the bluest (first) line, and otherwise the smallest
index whose line frequency is at most nu_cmf; for next_trans > 0 (with nu_cmf
not below the reddest line and next_trans at most nlines - 1) it returns
next_trans unchanged without searching. -/
theorem C3_closest_transition_spec (ll : List Line) (nu : ℚ) (k : ℤ)
    (hs : DescSorted ll) (hne : ll ≠ []) :
    (nu < nuAt ll (ll.length - 1) → closest_transition ll nu 0 = -1) ∧
    (nuAt ll 0 ≤ nu → closest_transition ll nu 0 = 0) ∧
    (nuAt ll (ll.length - 1) ≤ nu → nu < nuAt ll 0 →
      ∃ i : ℕ, closest_transition ll nu 0 = (i : ℤ) ∧ i < ll.length ∧
        nuAt ll i ≤ nu ∧ ∀ j < i, nu < nuAt ll j) ∧
    (0 < k → nuAt ll (ll.length - 1) ≤ nu → k ≤ (ll.length : ℤ) - 1 →
      closest_transition ll nu k = k) := by
  have hlen : 1 ≤ ll.length := List.length_pos.mpr hne
  have htn : (((ll.length : ℤ) - 1)).toNat = ll.length - 1 := by omega
  refine ⟨?_, ?_, ?_, ?_⟩
  · intro hred
    simp only [closest_transition, htn]
    rw [if_pos hred]
  · intro hblue
    have hanti : nuAt ll (ll.length - 1) ≤ nuAt ll 0 :=
      nuAt_anti hs (Nat.zero_le _) (by omega)
    simp only [closest_transition, htn]
    rw [if_neg (by linarith), if_neg (by omega), if_neg (by omega), if_pos hblue]
  · intro hred hblue
    have hlt : lowerBoundIdx ll 0 nu < ll.length := lowerBoundIdx_lt_length ll nu hlen hred
    simp only [closest_transition, htn]
    rw [if_neg (by linarith), if_neg (by omega), if_neg (by omega), if_neg (by linarith)]
    exact ⟨lowerBoundIdx ll 0 nu, rfl, hlt, lowerBoundIdx_at ll 0 nu hlt,
      fun j hj => lowerBoundIdx_before ll 0 nu j (Nat.zero_le _) hj⟩
  · intro hk hred hkr
    simp only [closest_transition, htn]
    rw [if_neg (by linarith), if_neg (by omega), if_pos (by omega)]

/-- Witness for C3 on a concrete three-line list. -/
theorem C3_closest_transition_spec_witness :
    DescSorted [(⟨5, 0, 0, 0, 0⟩ : Line), ⟨3, 0, 0, 0, 0⟩, ⟨1, 0, 0, 0, 0⟩] ∧
    closest_transition [(⟨5, 0, 0, 0, 0⟩ : Line), ⟨3, 0, 0, 0, 0⟩, ⟨1, 0, 0, 0, 0⟩] 2 1 = 1 := by
  refine ⟨by norm_num [DescSorted], ?_⟩
  exact (C3_closest_transition_spec
    [(⟨5, 0, 0, 0, 0⟩ : Line), ⟨3, 0, 0, 0, 0⟩, ⟨1, 0, 0, 0, 0⟩] 2 1
    (by norm_num [DescSorted]) (by decide)).2.2.2 (by decide) (by decide) (by decide)

/-- The hand-coded binary-search loop converges to the first index i0 whose
frequency is at most nu, provided the window [left, right] brackets i0 and the
list is sorted by descending frequency.  The middle argument is arbitrary
because the loop always exits through its break under these hypotheses. -/
lemma ctSearchLoop_finds (ll : List Line) (nu : ℚ) (hs : DescSorted ll)
    (i0 : ℕ) (hi0len : i0 < ll.length) (hi0pos : 1 ≤ i0)
    (hi0at : nuAt ll i0 ≤ nu) (hi0lb : ∀ j < i0, nu < nuAt ll j) :
    ∀ n : ℕ, ∀ l r m : ℤ, (r - l).toNat ≤ n → 0 ≤ l → l ≤ (i0 : ℤ) →
      (i0 : ℤ) ≤ r → r ≤ (ll.length : ℤ) - 1 →
      ctSearchLoop ll nu l r m = (i0 : ℤ) := by
  intro n
  induction n using Nat.strong_induction_on with
  | _ n ih =>
    intro l r m hn h0 hl hr hrlen
    have hlr : l ≤ r := le_trans hl hr
    rw [ctSearchLoop]
    rw [dif_pos hlr]
    set mm : ℤ := l + (r - l) / 2 with hmdef
    have hml : l ≤ mm := by omega
    have hmr : mm ≤ r := by omega
    have factA : nuAt ll mm.toNat ≤ nu → (i0 : ℤ) ≤ mm := by
      intro hle
      by_contra hcon
      have : mm.toNat < i0 := by omega
      exact absurd hle (not_le.mpr (hi0lb mm.toNat this))
    have factB : nuAt ll (mm - 1).toNat ≤ nu → (i0 : ℤ) ≤ mm - 1 := by
      intro hle
      by_contra hcon
      have : (mm - 1).toNat < i0 := by omega
      exact absurd hle (not_le.mpr (hi0lb (mm - 1).toNat this))
    have factC : nu < nuAt ll mm.toNat → mm + 1 ≤ (i0 : ℤ) := by
      intro hlt
      by_contra hcon
      have h1 : i0 ≤ mm.toNat := by omega
      have h2 : mm.toNat < ll.length := by omega
      exact absurd (le_trans (nuAt_anti hs h1 h2) hi0at) (not_le.mpr hlt)
    have factD : nu < nuAt ll (mm - 1).toNat → mm - 1 < (i0 : ℤ) := by
      intro hlt
      by_contra hcon
      have h1 : i0 ≤ (mm - 1).toNat := by omega
      have h2 : (mm - 1).toNat < ll.length := by omega
      exact absurd (le_trans (nuAt_anti hs h1 h2) hi0at) (not_le.mpr hlt)
    split_ifs with hbreak hle2
    · have hA := factA hbreak.1
      have hD := factD hbreak.2
      omega
    · have hA := factA hle2
      have hB := factB (not_lt.mp (fun hb => hbreak ⟨hle2, hb⟩))
      exact ih (mm - 1 - l).toNat (by omega) l (mm - 1) mm (by omega) h0 hl hB (by omega)
    · have hC := factC (not_le.mp hle2)
      exact ih (r - (mm + 1)).toNat (by omega) (mm + 1) r mm (by omega) (by omega) hC hr hrlen

/-- C10: the std::lower_bound implementation and the legacy hand-coded
binary-search implementation of closest_transition agree on every strictly
descending linelist and every input pair with non-negative next_trans. -/
theorem C10_closest_transition_equiv (ll : List Line) (nu : ℚ) (k : ℤ)
    (hs : StrictDescSorted ll) (hk : 0 ≤ k) :
    closest_transition_v2 ll nu k = closest_transition ll nu k := by
  have hd := hs.desc
  simp only [closest_transition, closest_transition_v2]
  split_ifs with h1 h2 h3 h4
  · rfl
  · rfl
  · rfl
  · rfl
  · -- search branch: next_trans = 0 and nu lies strictly inside the list range
    have hk0 : k = 0 := by omega
    subst hk0
    have hlen : 1 ≤ ll.length := by omega
    have htn : (((ll.length : ℤ) - 1)).toNat = ll.length - 1 := by omega
    rw [htn] at h1
    have hred : nuAt ll (ll.length - 1) ≤ nu := not_lt.mp h1
    have hblue : nu < nuAt ll 0 := not_le.mp h4
    have hi0eq : lowerBoundIdx ll (0 : ℤ).toNat nu = lowerBoundIdx ll 0 nu := rfl
    set i0 : ℕ := lowerBoundIdx ll 0 nu with hi0def
    have hi0len : i0 < ll.length := lowerBoundIdx_lt_length ll nu hlen hred
    have hi0pos : 1 ≤ i0 := by
      have hne : ll ≠ [] := by
        intro hcon
        rw [hcon] at hlen
        simp at hlen
      have hp : (fun line => decide (nu < line.nu)) (ll.getD 0 default) = true := by
        simp only [decide_eq_true_eq]
        exact hblue
      have := lbCount_pos (fun line => decide (nu < line.nu)) ll hne hp
      have hrw : i0 = lbCount (fun line => decide (nu < line.nu)) ll := by
        simp [hi0def, lowerBoundIdx]
      omega
    have hi0at : nuAt ll i0 ≤ nu := lowerBoundIdx_at ll 0 nu hi0len
    have hi0lb : ∀ j < i0, nu < nuAt ll j := fun j hj =>
      lowerBoundIdx_before ll 0 nu j (Nat.zero_le _) hj
    rw [hi0eq]
    exact ctSearchLoop_finds ll nu hd i0 hi0len hi0pos hi0at hi0lb
      ((ll.length : ℤ) - 1 - 0).toNat 0 ((ll.length : ℤ) - 1) 1
      (by omega) (by omega) (by omega) (by omega) (by omega)

/-- Witness for C10 on a concrete strictly descending four-line list. -/
theorem C10_closest_transition_equiv_witness :
    StrictDescSorted [(⟨5, 0, 0, 0, 0⟩ : Line), ⟨4, 0, 0, 0, 0⟩, ⟨2, 0, 0, 0, 0⟩, ⟨1, 0, 0, 0, 0⟩] ∧
    closest_transition_v2
        [(⟨5, 0, 0, 0, 0⟩ : Line), ⟨4, 0, 0, 0, 0⟩, ⟨2, 0, 0, 0, 0⟩, ⟨1, 0, 0, 0, 0⟩] 3 0 =
      closest_transition
        [(⟨5, 0, 0, 0, 0⟩ : Line), ⟨4, 0, 0, 0, 0⟩, ⟨2, 0, 0, 0, 0⟩, ⟨1, 0, 0, 0, 0⟩] 3 0 := by
  refine ⟨by norm_num [StrictDescSorted], ?_⟩
  exact C10_closest_transition_equiv
    [(⟨5, 0, 0, 0, 0⟩ : Line), ⟨4, 0, 0, 0, 0⟩, ⟨2, 0, 0, 0, 0⟩, ⟨1, 0, 0, 0, 0⟩] 3 0
    (by norm_num [StrictDescSorted]) (by decide)

/-- A 3-vector of exact rationals (double[3] in the source). -/
structure Vec3 where
  x : ℚ
  y : ℚ
  z : ℚ
deriving DecidableEq, Inhabited

/-- Dot product of two 3-vectors (vector utility header). -/
def dot (a b : Vec3) : ℚ :=
  a.x * b.x + a.y * b.y + a.z * b.z

/-- Cross product of two 3-vectors (vector utility header). -/
def cross_prod (a b : Vec3) : Vec3 :=
  ⟨a.y * b.z - a.z * b.y, a.z * b.x - a.x * b.z, a.x * b.y - a.y * b.x⟩

/-- Scalar multiple of a 3-vector. -/
def vscale (s : ℚ) (a : Vec3) : Vec3 :=
  ⟨s * a.x, s * a.y, s * a.z⟩

/-- Sum of two 3-vectors. -/
def vadd (a b : Vec3) : Vec3 :=
  ⟨a.x + b.x, a.y + b.y, a.z + b.z⟩

/-- Vector length.  The square root of a rational is irrational in general, so
an abstract square-root function rsqrt supplied by the environment is applied
to the squared length; theorems hypothesise the defining property of rsqrt at
the points where it is used. -/
def vec_len (rsqrt : ℚ → ℚ) (a : Vec3) : ℚ :=
  rsqrt (dot a a)

/-- Normalize a vector by dividing each component by its length. -/
def vec_norm (rsqrt : ℚ → ℚ) (a : Vec3) : Vec3 :=
  ⟨a.x / vec_len rsqrt a, a.y / vec_len rsqrt a, a.z / vec_len rsqrt a⟩

/-- The central packet entity.  Fields follow the C struct; where is renamed
to pwhere because where is a reserved word. -/
structure Packet where
  pos : Vec3
  dir : Vec3
  pwhere : ℤ
  nu_rf : ℚ
  nu_cmf : ℚ
  e_rf : ℚ
  e_cmf : ℚ
  prop_time : ℚ
  next_trans : ℤ
  ptype : ℤ
  last_cross : ℤ
  absorptiontype : ℤ
  absorptionfreq : ℚ
  absorptiondir : Vec3
  stokes : Vec3
  pol_dir : Vec3
  em_pos : Vec3
  em_time : ℚ
  interactions : ℤ
  nscatterings : ℤ
  scat_count : ℤ
  last_event : ℤ
  mas_element : ℤ
  mas_ion : ℤ
  mas_level : ℤ
  mas_activatingline : ℤ
deriving DecidableEq, Inhabited

/-- Modelled from the spec: homologous-expansion flow velocity v = pos / t
(the vector utilities file is not part of the source snapshot). -/
def get_velocity (pos : Vec3) (t : ℚ) : Vec3 :=
  vscale (1 / t) pos

/-- Modelled from the spec: Doppler factor nu_cmf / nu_rf for direction and
local flow velocity, in the non-relativistic build configuration
(USE_RELATIVISTIC_DOPPLER_SHIFT = false): D = 1 - (dir . v) / c. -/
def doppler_nucmf_on_nurf (dir vel : Vec3) : ℚ :=
  1 - dot dir vel / CLIGHT

/-- Modelled from the spec: Doppler factor of a packet at its current
position, direction and propagation time. -/
def doppler_packet_nucmf_on_nurf (p : Packet) : ℚ :=
  doppler_nucmf_on_nurf p.dir (get_velocity p.pos p.prop_time)

/-- Modelled from the spec: advance a packet along its direction by a
rest-frame distance, keeping the rest-frame frequency and recomputing the
comoving quantities from the Doppler factor at the new position (invariants
nu_rf = nu_cmf / D and e_rf = e_cmf / D of the design document). -/
def move_pkt (p : Packet) (distance : ℚ) : Packet :=
  let pos1 := vadd p.pos (vscale distance p.dir)
  let p1 : Packet := { p with pos := pos1 }
  let dopplerfactor := doppler_packet_nucmf_on_nurf p1
  { p1 with nu_cmf := p.nu_rf * dopplerfactor, e_cmf := p.e_rf * dopplerfactor }

/-- Modelled from the spec: advance the propagation time along with the
position, time advancing by distance / CLIGHT_PROP. -/
def move_pkt_withtime (p : Packet) (distance : ℚ) : Packet :=
  move_pkt { p with prop_time := p.prop_time + distance / CLIGHT_PROP } distance

/-- Per-thread continuum opacity cache (rpkt_cont_opacity struct). -/
structure RpktContOpacity where
  nu : ℚ
  modelgridindex : ℤ
  recalculate_required : Bool
  total : ℚ
  es : ℚ
  ff : ℚ
  bf : ℚ
  ffheating : ℚ
deriving DecidableEq, Inhabited

/-- One entry of the photoionization continuum list (allcont), ordered by
ascending threshold frequency nu_edge. -/
structure AllcontEntry where
  nu_edge : ℚ
  element : ℤ
  ion : ℤ
  level : ℤ
  phixstargetindex : ℤ
  upperlevel : ℤ
  probability : ℚ
  index_in_groundphixslist : ℤ
deriving DecidableEq, Inhabited

/-- Environment record bundling shared immutable tables, external
collaborators (model-grid and atomic-data queries, RNG draws), transcendental
kernels that have no exact rational form (exp, sqrt, the tabulated bound-free
cross sections), and runtime configuration. -/
structure Env where
  lines : List Line
  allcont : List AllcontEntry
  get_cell_modelgridindex : ℤ → ℤ
  npts_model : ℤ
  thick : ℤ → Bool
  get_nne : ℤ → ℚ
  get_nnetot : ℤ → ℚ
  get_elem_abundance : ℤ → ℤ → ℚ
  ionstagepop : ℤ → ℤ → ℤ → ℚ
  get_levelpop : ℤ → ℤ → ℤ → ℤ → ℚ
  stat_weight : ℤ → ℤ → ℤ → ℚ
  einstein_spontaneous_emission : ℤ → ℚ
  get_phixsupperlevel : ℤ → ℤ → ℤ → ℤ → ℤ
  get_Te : ℤ → ℚ
  sigma_bf_of : ℕ → ℚ → ℚ
  ch_allcont_departureratios : ℕ → ℚ
  expfn : ℚ → ℚ
  last_phixs_nuovernuedge : ℚ
  calculate_kappa_ff : ℤ → ℚ → ℚ
  do_r_lc : Bool
  opacity_case : ℤ
  DETAILED_BF_ESTIMATORS_ON : Bool
  SEPARATE_STIMRECOMB : Bool
  rand_dir : Vec3
  rsqrt : ℚ → ℚ

/-- Constant h over k_B (sn3d header). -/
def HOVERKB : ℚ := 4.799243681748932e-11

/-- Species-presence test guarding each continuum of the bound-free loop: the
detailed-estimator build requires a positive element abundance, the default
build a non-negligible ion-stage population or a ground level. -/
def allcont_cond (env : Env) (mgi : ℤ) (e : AllcontEntry) : Bool :=
  (env.DETAILED_BF_ESTIMATORS_ON && decide (0 < env.get_elem_abundance mgi e.element)) ||
  (!env.DETAILED_BF_ESTIMATORS_ON &&
    (decide ((1e-6 : ℚ) < env.ionstagepop mgi e.element e.ion / env.get_nnetot mgi) ||
     decide (e.level = 0)))

/-- Stimulated-recombination correction factor for continuum i: one when
SEPARATE_STIMRECOMB is set, otherwise 1 - stimfactor clamped at zero, with
stimfactor the cached departure ratio times exp(-h nu / k T_e). -/
def corrfactor_of (env : Env) (mgi : ℤ) (nu : ℚ) (i : ℕ) : ℚ :=
  if env.SEPARATE_STIMRECOMB then 1
  else if 1 - env.ch_allcont_departureratios i * env.expfn (-HOVERKB * nu / env.get_Te mgi) < 0
    then 0
  else 1 - env.ch_allcont_departureratios i * env.expfn (-HOVERKB * nu / env.get_Te mgi)

/-- Bound-free opacity contribution of continuum i: level population times
interpolated cross section times phixs probability times the
stimulated-recombination correction. -/
def kappa_bf_contr (env : Env) (mgi : ℤ) (nu : ℚ) (i : ℕ) (e : AllcontEntry) : ℚ :=
  env.get_levelpop mgi e.element e.ion e.level * env.sigma_bf_of i nu * e.probability *
    corrfactor_of env mgi nu i

/-- Main loop of calculate_kappa_bf_gammacontr: walk allcont in ascending
nu_edge, accumulating the running cumulative sum into the per-thread scratch
array; break out at the first in-range continuum whose edge exceeds nu and
propagate the last cumulative value to all remaining indices.  Returns the
scratch array (kappa_bf_sum) and the final cumulative sum. -/
def kappa_bf_loop (env : Env) (mgi : ℤ) (nu : ℚ) : ℕ → List AllcontEntry → ℚ → List ℚ × ℚ
  | _, [], s => ([], s)
  | i, e :: rest, s =>
    if allcont_cond env mgi e then
      if nu < e.nu_edge then ((e :: rest).map (fun _ => s), s)
      else if nu ≤ e.nu_edge * env.last_phixs_nuovernuedge ∧
          0 < env.get_levelpop mgi e.element e.ion e.level then
        let s1 := s + kappa_bf_contr env mgi nu i e
        let res := kappa_bf_loop env mgi nu (i + 1) rest s1
        (s1 :: res.1, res.2)
      else
        let res := kappa_bf_loop env mgi nu (i + 1) rest s
        (s :: res.1, res.2)
    else
      let res := kappa_bf_loop env mgi nu (i + 1) rest s
      (s :: res.1, res.2)

/-- Embedding of calculate_kappa_bf_gammacontr: fills the per-thread
kappa_bf_sum scratch and returns it together with the total bound-free
opacity.  The groundcont gamma contributions and the non-finiteness abort are
side effects invisible to the claims (rationals are always finite). -/
def calculate_kappa_bf_gammacontr (env : Env) (mgi : ℤ) (nu : ℚ) : List ℚ × ℚ :=
  kappa_bf_loop env mgi nu 0 env.allcont 0

/-- Recomputation branch of calculate_kappa_rpkt_cont (cache miss): Thomson,
free-free and bound-free opacities at the comoving frequency, with the
do_r_lc and opacity_case configuration branching of the source. -/
def kappa_rpkt_cont_compute (env : Env) (mgi : ℤ) (nu_cmf : ℚ) : RpktContOpacity :=
  if env.do_r_lc then
    if env.opacity_case = 4 then
      let sigma := SIGMA_T * env.get_nne mgi
      let kff := env.calculate_kappa_ff mgi nu_cmf
      let kbf := (calculate_kappa_bf_gammacontr env mgi nu_cmf).2
      ⟨nu_cmf, mgi, false, sigma + kbf + kff, sigma, kff, kbf, kff⟩
    else
      let kff := (1e5 : ℚ) * env.calculate_kappa_ff mgi nu_cmf
      ⟨nu_cmf, mgi, false, 0 + 0 + kff, 0, kff, 0, 0⟩
  else ⟨nu_cmf, mgi, false, 0 + 0 + 0, 0, 0, 0, 0⟩

/-- Embedding of calculate_kappa_rpkt_cont: return the cached comoving
opacities unchanged when the model-grid index matches, no reset is pending
and the relative frequency difference is below 1e-4; otherwise recompute.
The non-finite fallback of the source cannot trigger over exact rationals. -/
def calculate_kappa_rpkt_cont (env : Env) (p : Packet) (cache : RpktContOpacity) :
    RpktContOpacity :=
  let mgi := env.get_cell_modelgridindex p.pwhere
  let nu_cmf := p.nu_cmf
  if mgi = cache.modelgridindex ∧ cache.recalculate_required = false ∧
      |cache.nu / nu_cmf - 1| < 1e-4 then
    cache
  else kappa_rpkt_cont_compute env mgi nu_cmf

/-- The stimulated-recombination correction factor is never negative. -/
lemma corrfactor_nonneg (env : Env) (mgi : ℤ) (nu : ℚ) (i : ℕ) :
    0 ≤ corrfactor_of env mgi nu i := by
  unfold corrfactor_of
  split_ifs <;> linarith

/-- A constant-mapped tail keeps a chain of less-or-equal steps. -/
lemma chain'_const_cons {α : Type} (s : ℚ) (l : List α) :
    List.Chain' (· ≤ ·) (s :: l.map (fun _ => s)) := by
  induction l with
  | nil => simp
  | cons a as ih =>
      simpa [List.chain'_cons] using ih

/-- The last element of a constant-mapped list with matching default. -/
lemma getLastD_const {α : Type} (s : ℚ) (l : List α) :
    (l.map (fun _ => s)).getLastD s = s := by
  induction l with
  | nil => rfl
  | cons a as ih =>
      rw [List.map_cons, List.getLastD_cons]
      exact ih

/-- Invariant of the bound-free accumulation loop: the scratch slice written
for the remaining entries has one value per entry, is non-decreasing starting
from the incoming cumulative sum, and ends exactly at the returned total. -/
lemma kappa_bf_loop_spec (env : Env) (mgi : ℤ) (nu : ℚ)
    (hσ : ∀ i, 0 ≤ env.sigma_bf_of i nu) :
    ∀ (l : List AllcontEntry) (i : ℕ) (s : ℚ), (∀ e ∈ l, 0 ≤ e.probability) →
      (kappa_bf_loop env mgi nu i l s).1.length = l.length ∧
      List.Chain' (· ≤ ·) (s :: (kappa_bf_loop env mgi nu i l s).1) ∧
      (kappa_bf_loop env mgi nu i l s).2 = (kappa_bf_loop env mgi nu i l s).1.getLastD s := by
  intro l
  induction l with
  | nil =>
      intro i s _
      simp [kappa_bf_loop]
  | cons e rest ih =>
      intro i s hp
      have hpe : 0 ≤ e.probability := hp e (by simp)
      have hprest : ∀ x ∈ rest, 0 ≤ x.probability := fun x hx => hp x (by simp [hx])
      by_cases hc : allcont_cond env mgi e
      · by_cases hbr : nu < e.nu_edge
        · simp only [kappa_bf_loop, hc, if_true, if_pos hbr]
          refine ⟨by simp, ?_, ?_⟩
          · simpa [List.map_cons] using chain'_const_cons s (e :: rest)
          · rw [List.map_cons, List.getLastD_cons]
            exact (getLastD_const s rest).symm
        · by_cases hadd : nu ≤ e.nu_edge * env.last_phixs_nuovernuedge ∧
              0 < env.get_levelpop mgi e.element e.ion e.level
          · have hcontr : 0 ≤ kappa_bf_contr env mgi nu i e := by
              unfold kappa_bf_contr
              have h1 := hσ i
              have h2 := corrfactor_nonneg env mgi nu i
              have h3 := le_of_lt hadd.2
              exact mul_nonneg (mul_nonneg (mul_nonneg h3 h1) hpe) h2
            have hr := ih (i + 1) (s + kappa_bf_contr env mgi nu i e) hprest
            simp only [kappa_bf_loop, hc, if_true, if_neg hbr, if_pos hadd]
            refine ⟨by simpa using hr.1, ?_, ?_⟩
            · exact List.chain'_cons.mpr ⟨by linarith, hr.2.1⟩
            · rw [List.getLastD_cons]
              exact hr.2.2
          · have hr := ih (i + 1) s hprest
            simp only [kappa_bf_loop, hc, if_true, if_neg hbr, if_neg hadd]
            refine ⟨by simpa using hr.1, ?_, ?_⟩
            · exact List.chain'_cons.mpr ⟨le_refl s, hr.2.1⟩
            · rw [List.getLastD_cons]
              exact hr.2.2
      · have hr := ih (i + 1) s hprest
        simp only [kappa_bf_loop, if_neg hc]
        refine ⟨by simpa using hr.1, ?_, ?_⟩
        · exact List.chain'_cons.mpr ⟨le_refl s, hr.2.1⟩
        · rw [List.getLastD_cons]
          exact hr.2.2

/-- C6: after calculate_kappa_bf_gammacontr, the per-thread kappa_bf_sum
scratch holds one value per continuum, is non-decreasing over the indices
(every index at and beyond the break point, and every skipped continuum,
holds the running cumulative sum), and its last entry equals the returned
bound-free opacity exactly, so the consistency assertion of the continuum
event handler cannot fire.  Cross sections and sampling probabilities are
non-negative external atomic data. -/
theorem C6_kappa_bf_sum_cumulative (env : Env) (mgi : ℤ) (nu : ℚ)
    (hσ : ∀ i, 0 ≤ env.sigma_bf_of i nu)
    (hp : ∀ e ∈ env.allcont, 0 ≤ e.probability) :
    (calculate_kappa_bf_gammacontr env mgi nu).1.length = env.allcont.length ∧
    List.Chain' (· ≤ ·) (calculate_kappa_bf_gammacontr env mgi nu).1 ∧
    (calculate_kappa_bf_gammacontr env mgi nu).1.getLastD 0 =
      (calculate_kappa_bf_gammacontr env mgi nu).2 := by
  have h := kappa_bf_loop_spec env mgi nu hσ env.allcont 0 0 hp
  exact ⟨h.1, by simpa using h.2.1.tail, h.2.2.symm⟩

/-- Concrete environment used by the witnesses. -/
def envW : Env where
  lines := [⟨5, 0, 0, 0, 0⟩, ⟨2, 0, 0, 0, 0⟩]
  allcont := [⟨1, 0, 0, 0, 0, 0, 1, 0⟩, ⟨2, 0, 0, 0, 0, 0, 1, 0⟩]
  get_cell_modelgridindex := fun _ => 0
  npts_model := 5
  thick := fun _ => false
  get_nne := fun _ => 1
  get_nnetot := fun _ => 1
  get_elem_abundance := fun _ _ => 1
  ionstagepop := fun _ _ _ => 1
  get_levelpop := fun _ _ _ _ => 1
  stat_weight := fun _ _ _ => 1
  einstein_spontaneous_emission := fun _ => 0
  get_phixsupperlevel := fun _ _ _ _ => 7
  get_Te := fun _ => 1
  sigma_bf_of := fun _ _ => 1
  ch_allcont_departureratios := fun _ => 0
  expfn := fun _ => 0
  last_phixs_nuovernuedge := 100
  calculate_kappa_ff := fun _ _ => 0
  do_r_lc := true
  opacity_case := 4
  DETAILED_BF_ESTIMATORS_ON := false
  SEPARATE_STIMRECOMB := false
  rand_dir := ⟨0, 0, 1⟩
  rsqrt := fun q => if q = 16 / 25 then 4 / 5 else if q = 9 / 25 then 3 / 5 else
    if q = 1 then 1 else 0

/-- Witness for C6 at the concrete environment and frequency 3. -/
theorem C6_kappa_bf_sum_cumulative_witness :
    (∀ i : ℕ, 0 ≤ envW.sigma_bf_of i 3) ∧
    (calculate_kappa_bf_gammacontr envW 0 3).1.getLastD 0 =
      (calculate_kappa_bf_gammacontr envW 0 3).2 := by
  refine ⟨fun i => by norm_num [envW], ?_⟩
  exact (C6_kappa_bf_sum_cumulative envW 0 3 (fun i => by norm_num [envW]) (by decide)).2.2

/-- C8: calculate_kappa_rpkt_cont is cache-idempotent: a second call for a
packet in the same model-grid cell with relative comoving-frequency
difference below 1e-4 (and no reset in between) returns the cache unchanged,
all cached totals identical; and any call for a packet whose cell differs
from the cached one recomputes the opacities from scratch. -/
theorem C8_kappa_cache (env : Env) (p1 p2 : Packet) (cache : RpktContOpacity)
    (hmgi : env.get_cell_modelgridindex p2.pwhere =
      (calculate_kappa_rpkt_cont env p1 cache).modelgridindex)
    (hnu : |(calculate_kappa_rpkt_cont env p1 cache).nu / p2.nu_cmf - 1| < 1e-4) :
    calculate_kappa_rpkt_cont env p2 (calculate_kappa_rpkt_cont env p1 cache) =
      calculate_kappa_rpkt_cont env p1 cache ∧
    (∀ q : Packet, ∀ c : RpktContOpacity,
      env.get_cell_modelgridindex q.pwhere ≠ c.modelgridindex →
      calculate_kappa_rpkt_cont env q c =
        kappa_rpkt_cont_compute env (env.get_cell_modelgridindex q.pwhere) q.nu_cmf) := by
  have hstep : ∀ (q : Packet) (c : RpktContOpacity),
      env.get_cell_modelgridindex q.pwhere = c.modelgridindex →
      c.recalculate_required = false → |c.nu / q.nu_cmf - 1| < 1e-4 →
      calculate_kappa_rpkt_cont env q c = c := by
    intro q c h1 h2 h3
    simp only [calculate_kappa_rpkt_cont]
    rw [if_pos ⟨h1, h2, h3⟩]
  constructor
  · have hrecalc : (calculate_kappa_rpkt_cont env p1 cache).recalculate_required = false := by
      simp only [calculate_kappa_rpkt_cont]
      split_ifs with h
      · exact h.2.1
      · simp only [kappa_rpkt_cont_compute]
        split_ifs <;> rfl
    exact hstep p2 _ hmgi hrecalc hnu
  · intro q c hne
    simp only [calculate_kappa_rpkt_cont]
    rw [if_neg]
    intro hcon
    exact hne hcon.1

/-- Concrete packet used by the witnesses: moving radially outward halfway
through its cell, with consistent rest and comoving frame data. -/
def pktW : Packet where
  pos := ⟨CLIGHT, 0, 0⟩
  dir := ⟨1, 0, 0⟩
  pwhere := 0
  nu_rf := 2
  nu_cmf := 1
  e_rf := 2
  e_cmf := 1
  prop_time := 2
  next_trans := 0
  ptype := TYPE_RPKT
  last_cross := NONE
  absorptiontype := 0
  absorptionfreq := 0
  absorptiondir := ⟨0, 0, 0⟩
  stokes := ⟨1, 0, 0⟩
  pol_dir := ⟨0, 0, 0⟩
  em_pos := ⟨0, 0, 0⟩
  em_time := 0
  interactions := 0
  nscatterings := 0
  scat_count := 0
  last_event := 0
  mas_element := 0
  mas_ion := 0
  mas_level := 0
  mas_activatingline := 0

/-- Witness for C8: a first call populates the cache, a second call with the
same packet leaves it untouched, and a stale cell index forces recomputation. -/
theorem C8_kappa_cache_witness :
    envW.get_cell_modelgridindex pktW.pwhere =
      (calculate_kappa_rpkt_cont envW pktW ⟨0, -5, false, 0, 0, 0, 0, 0⟩).modelgridindex ∧
    calculate_kappa_rpkt_cont envW pktW
        (calculate_kappa_rpkt_cont envW pktW ⟨0, -5, false, 0, 0, 0, 0, 0⟩) =
      calculate_kappa_rpkt_cont envW pktW ⟨0, -5, false, 0, 0, 0, 0, 0⟩ := by
  refine ⟨by decide, ?_⟩
  exact (C8_kappa_cache envW pktW pktW ⟨0, -5, false, 0, 0, 0, 0, 0⟩
    (by decide)
    (by norm_num [calculate_kappa_rpkt_cont, kappa_rpkt_cont_compute,
      calculate_kappa_bf_gammacontr, kappa_bf_loop, allcont_cond, corrfactor_of,
      kappa_bf_contr, envW, pktW])).1

/-- Distance result of get_event: either no event before the abort distance
(the source returns the largest double, treated by all callers as infinity)
or a finite event distance. -/
inductive EDist where
  | infinite : EDist
  | fin : ℚ → EDist
deriving DecidableEq

/-- Result record of get_event: the returned distance, the event type output
parameter, the committed packet state, and a ghost trace of the line indices
returned by the successive closest_transition calls. -/
structure GetEventResult where
  edist : EDist
  eventtype : ℤ
  pkt : Packet
  examined : List ℤ
deriving DecidableEq

/-- Linelist entry at a signed index (the C access linelist[lineindex]). -/
def lineAt (env : Env) (i : ℤ) : Line :=
  env.lines.getD i.toNat default

/-- Local variable nu_trans of the get_event loop body: frequency of the
candidate line returned by closest_transition for the shadow packet. -/
def line_nu (env : Env) (dp : Packet) : ℚ :=
  (lineAt env (closest_transition env.lines dp.nu_cmf dp.next_trans)).nu

/-- Local variable ldist of the get_event loop body: distance from the shadow
packet to the resonance with the candidate line, zero when the packet has
already drifted past the line frequency, computed with the non-relativistic
closed form, and clamped at zero against small negative round-off (the
monotonicity bump of next_trans does not change nu_cmf or prop_time, so the
shadow packet is used directly). -/
def ldist_to_line (env : Env) (dp : Packet) : ℚ :=
  if dp.nu_cmf ≤ line_nu env dp then 0
  else if CLIGHT * dp.prop_time * (dp.nu_cmf / line_nu env dp - 1) < 0 then 0
  else CLIGHT * dp.prop_time * (dp.nu_cmf / line_nu env dp - 1)

/-- Local variable tau_line of the get_event loop body: Sobolev optical depth
of the candidate line, clamped at zero for population inversions. -/
def tau_line_sobolev (env : Env) (mgi : ℤ) (dp : Packet) : ℚ :=
  let line := lineAt env (closest_transition env.lines dp.nu_cmf dp.next_trans)
  let A_ul := env.einstein_spontaneous_emission
    (closest_transition env.lines dp.nu_cmf dp.next_trans)
  let B_ul := CLIGHTSQUAREDOVERTWOH / line.nu ^ 3 * A_ul
  let B_lu := env.stat_weight line.elementindex line.ionindex line.upperlevelindex /
    env.stat_weight line.elementindex line.ionindex line.lowerlevelindex * B_ul
  let n_u := env.get_levelpop mgi line.elementindex line.ionindex line.upperlevelindex
  let n_l := env.get_levelpop mgi line.elementindex line.ionindex line.lowerlevelindex
  let tau_line0 := (B_lu * n_l - B_ul * n_u) * HCLIGHTOVERFOURPI * dp.prop_time
  if tau_line0 < 0 then 0 else tau_line0

/-- Main loop of get_event (source order preserved): query the next candidate
line from the shadow packet dp, bump its next_trans as monotonicity guard,
compute the resonance distance and continuum depth, then either exit across
the frequency-space abort boundary, fly past the line and iterate, trigger
the bound-bound event, or trigger the continuum event; with no reachable
line, decide between continuum event and no-event within the abort distance.
The radiation-field estimator updates are external side effects without
influence on the returned state and are omitted. -/
def get_event_loop (env : Env) (mgi : ℤ) (pkt : Packet)
    (tau_rnd abort_dist nu_cmf_abort kap_cont : ℚ)
    (tau dist : ℚ) (dp : Packet) (evt : ℤ) (acc : List ℤ) : GetEventResult :=
  if hline : 0 ≤ closest_transition env.lines dp.nu_cmf dp.next_trans then
    if tau_rnd - tau > kap_cont * ldist_to_line env dp then
      if line_nu env dp < nu_cmf_abort then
        { edist := EDist.infinite, eventtype := evt,
          pkt := { pkt with
            next_trans := closest_transition env.lines dp.nu_cmf dp.next_trans + 1 - 1 },
          examined := acc ++ [closest_transition env.lines dp.nu_cmf dp.next_trans] }
      else if tau_rnd - tau >
          kap_cont * ldist_to_line env dp + tau_line_sobolev env mgi dp then
        get_event_loop env mgi pkt tau_rnd abort_dist nu_cmf_abort kap_cont
          (tau + kap_cont * ldist_to_line env dp + tau_line_sobolev env mgi dp)
          (dist + ldist_to_line env dp)
          (move_pkt_withtime
            { dp with next_trans := closest_transition env.lines dp.nu_cmf dp.next_trans + 1 }
            (ldist_to_line env dp))
          evt (acc ++ [closest_transition env.lines dp.nu_cmf dp.next_trans])
      else
        { edist := EDist.fin (if dist + ldist_to_line env dp ≥ abort_dist
            then abort_dist * (1 - 2e-8) else dist + ldist_to_line env dp),
          eventtype := RPKT_EVENTTYPE_BB,
          pkt := { pkt with
            next_trans := closest_transition env.lines dp.nu_cmf dp.next_trans + 1,
            mas_element :=
              (lineAt env (closest_transition env.lines dp.nu_cmf dp.next_trans)).elementindex,
            mas_ion :=
              (lineAt env (closest_transition env.lines dp.nu_cmf dp.next_trans)).ionindex,
            mas_level :=
              (lineAt env (closest_transition env.lines dp.nu_cmf dp.next_trans)).upperlevelindex,
            mas_activatingline := closest_transition env.lines dp.nu_cmf dp.next_trans },
          examined := acc ++ [closest_transition env.lines dp.nu_cmf dp.next_trans] }
    else
      { edist := EDist.fin (dist + (tau_rnd - tau) / kap_cont),
        eventtype := RPKT_EVENTTYPE_CONT,
        pkt := { pkt with
          next_trans := closest_transition env.lines dp.nu_cmf dp.next_trans + 1 - 1 },
        examined := acc ++ [closest_transition env.lines dp.nu_cmf dp.next_trans] }
  else
    if tau_rnd - tau > kap_cont * (abort_dist - dist) then
      { edist := EDist.infinite, eventtype := evt,
        pkt := { pkt with next_trans := (env.lines.length : ℤ) + 1 },
        examined := acc }
    else
      { edist := EDist.fin (dist + (tau_rnd - tau) / kap_cont),
        eventtype := RPKT_EVENTTYPE_CONT,
        pkt := { pkt with next_trans := (env.lines.length : ℤ) + 1 },
        examined := acc }
termination_by (((env.lines.length : ℤ) + 1) - dp.next_trans).toNat
decreasing_by
  simp only [move_pkt_withtime, move_pkt]
  have h := closest_transition_ge env.lines dp.nu_cmf dp.next_trans hline
  omega

/-- Embedding of get_event: precompute the comoving frequency at the abort
distance by advancing a shadow copy in two half-steps, fetch the continuum
opacity through the per-thread cache, convert it to the rest frame with the
Doppler factor, and run the event loop from the caller state. -/
def get_event (env : Env) (cache : RpktContOpacity) (mgi : ℤ) (pkt : Packet)
    (evt0 : ℤ) (tau_rnd abort_dist : ℚ) : GetEventResult :=
  let dummypkt_abort := move_pkt_withtime (move_pkt_withtime pkt (abort_dist / 2)) (abort_dist / 2)
  let nu_cmf_abort := dummypkt_abort.nu_cmf
  let kap_cont := (calculate_kappa_rpkt_cont env pkt cache).total *
    doppler_packet_nucmf_on_nurf pkt
  get_event_loop env mgi pkt tau_rnd abort_dist nu_cmf_abort kap_cont 0 0 pkt evt0 []

/-- A non-negative closest_transition result is at most nlines. -/
lemma closest_transition_le (ll : List Line) (nu : ℚ) (k : ℤ)
    (h : 0 ≤ closest_transition ll nu k) :
    closest_transition ll nu k ≤ (ll.length : ℤ) := by
  rcases closest_transition_cases ll nu k with hc | hc | hc | hc
  · omega
  · omega
  · omega
  · rcases hc with ⟨hk0, hklen, heq⟩
    rw [heq]
    have h1 := lowerBoundIdx_le ll k.toNat nu (by omega)
    omega

/-- Membership of the last element of a list. -/
lemma mem_of_getLastQue {l : List ℤ} {a : ℤ} (h : l.getLast? = some a) : a ∈ l := by
  induction l with
  | nil => simp at h
  | cons b bs ih =>
      cases bs with
      | nil =>
          simp only [List.getLast?_singleton, Option.some.injEq] at h
          simp [h]
      | cons c cs =>
          rw [List.getLast?_cons_cons] at h
          exact List.mem_cons_of_mem b (ih h)

/-- Appending a strict upper bound keeps a strictly increasing trace. -/
lemma chain'_append_singleton {l : List ℤ} {a : ℤ} (hc : List.Chain' (· < ·) l)
    (hall : ∀ x ∈ l, x < a) : List.Chain' (· < ·) (l ++ [a]) := by
  rw [List.chain'_append]
  refine ⟨hc, List.chain'_singleton a, ?_⟩
  intro x hx y hy
  simp only [List.head?_cons, Option.mem_def, Option.some.injEq] at hy
  subst hy
  exact hall x (mem_of_getLastQue hx)

set_option maxHeartbeats 2000000 in
/-- Loop invariant of get_event: the ghost trace of examined line indices is
strictly increasing and the committed next_trans never drops below the shadow
packet entry value (and hence below the caller packet entry value). -/
lemma get_event_loop_invariant (env : Env) (mgi : ℤ) (pkt : Packet)
    (tau_rnd abort_dist nu_cmf_abort kap_cont : ℚ) :
    ∀ n : ℕ, ∀ (tau dist : ℚ) (dp : Packet) (evt : ℤ) (acc : List ℤ),
      ((((env.lines.length : ℤ) + 1) - dp.next_trans).toNat ≤ n) →
      dp.next_trans ≤ (env.lines.length : ℤ) + 1 →
      (∀ x ∈ acc, x < dp.next_trans) →
      List.Chain' (· < ·) acc →
      List.Chain' (· < ·) (get_event_loop env mgi pkt tau_rnd abort_dist nu_cmf_abort
        kap_cont tau dist dp evt acc).examined ∧
      dp.next_trans ≤ (get_event_loop env mgi pkt tau_rnd abort_dist nu_cmf_abort
        kap_cont tau dist dp evt acc).pkt.next_trans := by
  intro n
  induction n using Nat.strong_induction_on with
  | _ n ih =>
    intro tau dist dp evt acc hn hnt hacc hchain
    rw [get_event_loop.eq_def]
    by_cases hline : 0 ≤ closest_transition env.lines dp.nu_cmf dp.next_trans
    · rw [dif_pos hline]
      obtain ⟨hge, hklen⟩ := closest_transition_ge env.lines dp.nu_cmf dp.next_trans hline
      have hle := closest_transition_le env.lines dp.nu_cmf dp.next_trans hline
      have hchain1 : List.Chain' (· < ·)
          (acc ++ [closest_transition env.lines dp.nu_cmf dp.next_trans]) :=
        chain'_append_singleton hchain (fun x hx => lt_of_lt_of_le (hacc x hx) hge)
      split_ifs with h1 h2 h3 h4
      · exact ⟨by simpa using hchain1, by simp; omega⟩
      · have hmv : (move_pkt_withtime
            { dp with next_trans := closest_transition env.lines dp.nu_cmf dp.next_trans + 1 }
            (ldist_to_line env dp)).next_trans =
            closest_transition env.lines dp.nu_cmf dp.next_trans + 1 := by
          simp [move_pkt_withtime, move_pkt]
        have hres := ih
          (((env.lines.length : ℤ) + 1 -
            (closest_transition env.lines dp.nu_cmf dp.next_trans + 1)).toNat)
          (by omega)
          (tau + kap_cont * ldist_to_line env dp + tau_line_sobolev env mgi dp)
          (dist + ldist_to_line env dp)
          (move_pkt_withtime
            { dp with next_trans := closest_transition env.lines dp.nu_cmf dp.next_trans + 1 }
            (ldist_to_line env dp))
          evt (acc ++ [closest_transition env.lines dp.nu_cmf dp.next_trans])
          (by rw [hmv]) (by rw [hmv]; omega)
          (by
            rw [hmv]
            intro x hx
            rcases List.mem_append.mp hx with hx1 | hx2
            · have := hacc x hx1
              omega
            · simp only [List.mem_singleton] at hx2
              omega)
          hchain1
        rw [hmv] at hres
        exact ⟨hres.1, by omega⟩
      · exact ⟨by simpa using hchain1, by simp; omega⟩
      · exact ⟨by simpa using hchain1, by simp; omega⟩
      · exact ⟨by simpa using hchain1, by simp; omega⟩
    · rw [dif_neg hline]
      split_ifs with h1
      · exact ⟨by simpa using hchain, by simp; omega⟩
      · exact ⟨by simpa using hchain, by simp; omega⟩

/-- C2: within a single get_event invocation the line indices examined by the
successive closest_transition calls are strictly increasing (each examined
index i sets the shadow next_trans to i + 1 before the next search), so no
line can resonate twice for the same packet within the segment, and on every
return path the committed pkt next_trans is at least the entry value. -/
theorem C2_next_trans_monotone (env : Env) (cache : RpktContOpacity) (mgi : ℤ)
    (pkt : Packet) (evt0 : ℤ) (tau_rnd abort_dist : ℚ)
    (hnt : pkt.next_trans ≤ (env.lines.length : ℤ) + 1) :
    List.Chain' (· < ·)
      (get_event env cache mgi pkt evt0 tau_rnd abort_dist).examined ∧
    pkt.next_trans ≤
      (get_event env cache mgi pkt evt0 tau_rnd abort_dist).pkt.next_trans := by
  simp only [get_event]
  exact get_event_loop_invariant env mgi pkt tau_rnd abort_dist _ _
    ((((env.lines.length : ℤ) + 1) - pkt.next_trans).toNat) 0 0 pkt evt0 []
    (le_refl _) hnt (by simp) List.chain'_nil

/-- Environment for the abort-boundary counterexample: a single line far past
the abort boundary in frequency space. -/
def envC1 : Env :=
  { envW with lines := [⟨2 / 5, 0, 0, 0, 0⟩] }

/-- Opacity cache state used with get_event witnesses; the pending-reset flag
forces a fresh opacity computation on first use. -/
def cacheW : RpktContOpacity :=
  ⟨1, 0, true, 1, 1, 0, 0, 0⟩

/-- Witness for C2 at a concrete environment, cache and packet. -/
theorem C2_next_trans_monotone_witness :
    pktW.next_trans ≤ (envC1.lines.length : ℤ) + 1 ∧
    pktW.next_trans ≤
      (get_event envC1 cacheW 0 pktW (-1) 1 (2 * CLIGHT)).pkt.next_trans := by
  refine ⟨by decide, ?_⟩
  exact (C2_next_trans_monotone envC1 cacheW 0 pktW (-1) 1 (2 * CLIGHT) (by decide)).2

/-- C1 counterexample: a call of get_event in which the next candidate line
lies past the abort boundary in frequency space (nu_trans < nu_cmf_abort,
with nu_cmf_abort the comoving frequency of a shadow packet advanced to the
abort distance in two half-steps), yet get_event returns a finite continuum
event distance instead of infinity, because the random optical depth is
exhausted by the continuum before the line is reached. -/
theorem C1_get_event_abort_counterexample :
    0 ≤ closest_transition envC1.lines pktW.nu_cmf pktW.next_trans ∧
    line_nu envC1 pktW <
      (move_pkt_withtime (move_pkt_withtime pktW (2 * CLIGHT / 2)) (2 * CLIGHT / 2)).nu_cmf ∧
    (get_event envC1 cacheW 0 pktW (-1) 1 (2 * CLIGHT)).edist ≠ EDist.infinite := by
  refine ⟨?_, ?_, ?_⟩
  · norm_num [closest_transition, nuAt, lowerBoundIdx, lbCount, envC1, envW, pktW]
  · norm_num [line_nu, lineAt, closest_transition, nuAt, lowerBoundIdx, lbCount,
      move_pkt_withtime, move_pkt, doppler_packet_nucmf_on_nurf, doppler_nucmf_on_nurf,
      get_velocity, vadd, vscale, dot, envC1, envW, pktW, CLIGHT, CLIGHT_PROP]
  · have hstep : get_event envC1 cacheW 0 pktW (-1) 1 (2 * CLIGHT) =
        get_event_loop envC1 0 pktW 1 (2 * CLIGHT)
          ((move_pkt_withtime (move_pkt_withtime pktW (2 * CLIGHT / 2)) (2 * CLIGHT / 2)).nu_cmf)
          ((calculate_kappa_rpkt_cont envC1 pktW cacheW).total *
            doppler_packet_nucmf_on_nurf pktW)
          0 0 pktW (-1) [] := rfl
    rw [hstep, get_event_loop]
    rw [dif_pos (by
      norm_num [closest_transition, nuAt, lowerBoundIdx, lbCount, envC1, envW, pktW])]
    rw [if_neg (by
      norm_num [calculate_kappa_rpkt_cont, kappa_rpkt_cont_compute,
        calculate_kappa_bf_gammacontr, kappa_bf_loop, allcont_cond, corrfactor_of,
        kappa_bf_contr, doppler_packet_nucmf_on_nurf, doppler_nucmf_on_nurf,
        get_velocity, vadd, vscale, dot, ldist_to_line, line_nu, lineAt,
        closest_transition, nuAt, lowerBoundIdx, lbCount, envC1, envW, pktW, cacheW,
        CLIGHT, CLIGHT_PROP, SIGMA_T])]
    simp

/-- C1 as amended: whenever the next candidate line of a get_event loop state
lies past the abort boundary in frequency space (nu_trans < nu_cmf_abort)
AND the remaining random optical depth exceeds the continuum optical depth to
that line (tau_rnd - tau > kappa_cont ldist), get_event rewinds the shadow
next_trans by one, commits it into the packet, and returns infinity. -/
theorem C1_get_event_abort_amended (env : Env) (mgi : ℤ) (pkt : Packet)
    (tau_rnd abort_dist nu_cmf_abort kap_cont tau dist : ℚ) (dp : Packet)
    (evt : ℤ) (acc : List ℤ)
    (hline : 0 ≤ closest_transition env.lines dp.nu_cmf dp.next_trans)
    (htau : tau_rnd - tau > kap_cont * ldist_to_line env dp)
    (habort : line_nu env dp < nu_cmf_abort) :
    get_event_loop env mgi pkt tau_rnd abort_dist nu_cmf_abort kap_cont
      tau dist dp evt acc =
      { edist := EDist.infinite, eventtype := evt,
        pkt := { pkt with
          next_trans := closest_transition env.lines dp.nu_cmf dp.next_trans + 1 - 1 },
        examined := acc ++ [closest_transition env.lines dp.nu_cmf dp.next_trans] } := by
  rw [get_event_loop, dif_pos hline, if_pos htau, if_pos habort]

/-- Witness for the amended C1 at a concrete loop state with zero continuum
opacity, where the single line lies past the abort frequency. -/
theorem C1_get_event_abort_amended_witness :
    0 ≤ closest_transition envC1.lines pktW.nu_cmf pktW.next_trans ∧
    (1 : ℚ) - 0 > 0 * ldist_to_line envC1 pktW ∧
    line_nu envC1 pktW < 1 / 2 ∧
    (get_event_loop envC1 0 pktW 1 (2 * CLIGHT) (1 / 2) 0 0 0 pktW (-1) []).edist =
      EDist.infinite := by
  refine ⟨?_, by simp, ?_, ?_⟩
  · norm_num [closest_transition, nuAt, lowerBoundIdx, lbCount, envC1, envW, pktW]
  · norm_num [line_nu, lineAt, closest_transition, nuAt, lowerBoundIdx, lbCount,
      envC1, envW, pktW]
  · rw [C1_get_event_abort_amended envC1 0 pktW 1 (2 * CLIGHT) (1 / 2) 0 0 0 pktW (-1) []
      (by norm_num [closest_transition, nuAt, lowerBoundIdx, lbCount, envC1, envW, pktW])
      (by simp)
      (by norm_num [line_nu, lineAt, closest_transition, nuAt, lowerBoundIdx, lbCount,
        envC1, envW, pktW])]

/-- Branch selected by the sub-step dispatch of do_rpkt_step. -/
inductive StepBranch where
  | boundary : StepBranch
  | event : StepBranch
  | time : StepBranch
  | failstop : StepBranch
deriving DecidableEq

/-- Embedding of the event dispatch of do_rpkt_step: the chain of strict
comparisons selecting the boundary, event or time branch, with the fatal
fallthrough when none matches. -/
def rpkt_dispatch (sdist tdist edist : ℚ) : StepBranch :=
  if sdist < tdist ∧ sdist < edist then StepBranch.boundary
  else if edist < sdist ∧ edist < tdist then StepBranch.event
  else if tdist < sdist ∧ tdist < edist then StepBranch.time
  else StepBranch.failstop

/-- C4: the packet stepper dispatches on the minimum of the three candidate
distances: the boundary branch runs exactly when sdist is the strict minimum,
the event branch exactly when edist is, the time branch exactly when tdist
is, and the fatal abort happens exactly when no strict winner exists among
the three distances. -/
theorem C4_dispatch_minimum (sdist tdist edist : ℚ) :
    (rpkt_dispatch sdist tdist edist = StepBranch.boundary ↔
      sdist < tdist ∧ sdist < edist) ∧
    (rpkt_dispatch sdist tdist edist = StepBranch.event ↔
      edist < sdist ∧ edist < tdist) ∧
    (rpkt_dispatch sdist tdist edist = StepBranch.time ↔
      tdist < sdist ∧ tdist < edist) ∧
    (rpkt_dispatch sdist tdist edist = StepBranch.failstop ↔
      ¬(sdist < tdist ∧ sdist < edist) ∧ ¬(edist < sdist ∧ edist < tdist) ∧
      ¬(tdist < sdist ∧ tdist < edist)) := by
  unfold rpkt_dispatch
  split_ifs with h1 h2 h3
  · exact ⟨iff_of_true rfl h1,
      iff_of_false (by simp) (by rintro ⟨a, b⟩; exact absurd h1.2 (not_lt.mpr (le_of_lt a))),
      iff_of_false (by simp) (by rintro ⟨a, b⟩; exact absurd h1.1 (not_lt.mpr (le_of_lt a))),
      iff_of_false (by simp) (by rintro ⟨a, b, c⟩; exact a h1)⟩
  · exact ⟨iff_of_false (by simp) (fun hc => h1 hc),
      iff_of_true rfl h2,
      iff_of_false (by simp) (by rintro ⟨a, b⟩; exact absurd h2.2 (not_lt.mpr (le_of_lt b))),
      iff_of_false (by simp) (by rintro ⟨a, b, c⟩; exact b h2)⟩
  · exact ⟨iff_of_false (by simp) (fun hc => h1 hc),
      iff_of_false (by simp) (fun hc => h2 hc),
      iff_of_true rfl h3,
      iff_of_false (by simp) (by rintro ⟨a, b, c⟩; exact c h3)⟩
  · exact ⟨iff_of_false (by simp) (fun hc => h1 hc),
      iff_of_false (by simp) (fun hc => h2 hc),
      iff_of_false (by simp) (fun hc => h3 hc),
      iff_of_true rfl ⟨h1, h2, h3⟩⟩

/-- Per sub-step flag find_nextline of do_rpkt_step: set exactly when the
current cell is empty (first branch) or thick (second branch); the get_event
branch leaves it false. -/
def find_nextline_flag (cellIsEmpty thickIs1 : Bool) : Bool :=
  if cellIsEmpty then true
  else if thickIs1 then true
  else false

/-- Condition of the boundary-winner tail of do_rpkt_step under which
closest_transition_empty is invoked after change_cell: the find_nextline flag
and the newly entered cell being neither empty nor thick. -/
def boundary_reseat_condition (find_nextline newIsEmpty newThick1 : Bool) : Bool :=
  find_nextline && (!newIsEmpty && !newThick1)

/-- Embedding of closest_transition_empty: re-seat pkt next_trans for the
propagation through empty or thick cells.  The two leading checks write the
sentinel nlines + 1 into next_trans (feeding the subsequent lower-bound start
position), the final search never takes the return-next_trans short-circuit
of closest_transition. -/
def closest_transition_empty (lines : List Line) (p : Packet) : Packet :=
  let left : ℤ := p.next_trans
  let right : ℤ := (lines.length : ℤ) - 1
  let nt1 : ℤ := if p.nu_cmf < (lines.getD right.toNat default).nu
    then (lines.length : ℤ) + 1 else p.next_trans
  let nt2 : ℤ := if left > right then (lines.length : ℤ) + 1 else nt1
  let matchindex : ℤ :=
    if (lines.getD left.toNat default).nu ≤ p.nu_cmf then left
    else ((lowerBoundIdx lines nt2.toNat p.nu_cmf : ℕ) : ℤ)
  { p with next_trans := matchindex }

/-- C5 counterexample: the claim asserts that after a boundary crossing the
re-seat call happens if and only if the NEW cell is empty or thick.  With the
old cell empty (find_nextline set) and the new cell empty, the claim demands
a call, but the code makes none. -/
theorem C5_reseat_counterexample :
    (true || false) = true ∧
    boundary_reseat_condition (find_nextline_flag true false) true false = false := by
  constructor
  · rfl
  · rfl

/-- General version of the in-range property of the lower-bound search. -/
lemma lowerBoundIdx_lt_len_of (ll : List Line) (s : ℕ) (nu : ℚ)
    (hs : s ≤ ll.length - 1) (hlen : 1 ≤ ll.length)
    (hred : nuAt ll (ll.length - 1) ≤ nu) : lowerBoundIdx ll s nu < ll.length := by
  have hle := lowerBoundIdx_le ll s nu (by omega)
  rcases Nat.lt_or_ge (lowerBoundIdx ll s nu) ll.length with h | h
  · exact h
  · have heq : ll.length - 1 < lowerBoundIdx ll s nu := by omega
    have hb := lowerBoundIdx_before ll s nu (ll.length - 1) hs heq
    linarith

/-- C5 as amended: after a boundary crossing, closest_transition_empty is
called if and only if the OLD cell was empty or thick (find_nextline) and the
newly entered cell is neither empty nor thick; and the call re-seats
next_trans by the lower-bound search (never the return-next_trans
short-circuit): past the reddest line it writes the sentinel nlines + 1,
otherwise the first index at or after the previous next_trans whose line
frequency is at most nu_cmf. -/
theorem C5_reseat_amended (oldE oldT newE newT : Bool) (lines : List Line) (p : Packet)
    (hs : DescSorted lines) (h0 : 0 ≤ p.next_trans)
    (hk : p.next_trans ≤ (lines.length : ℤ) - 1) :
    (boundary_reseat_condition (find_nextline_flag oldE oldT) newE newT = true ↔
      (oldE = true ∨ oldT = true) ∧ newE = false ∧ newT = false) ∧
    (p.nu_cmf < nuAt lines (lines.length - 1) →
      (closest_transition_empty lines p).next_trans = (lines.length : ℤ) + 1) ∧
    (nuAt lines (lines.length - 1) ≤ p.nu_cmf →
      ∃ i : ℕ, (closest_transition_empty lines p).next_trans = (i : ℤ) ∧
        p.next_trans ≤ (i : ℤ) ∧ i < lines.length ∧ nuAt lines i ≤ p.nu_cmf ∧
        ∀ j : ℕ, p.next_trans ≤ (j : ℤ) → j < i → p.nu_cmf < nuAt lines j) := by
  have hlen : 1 ≤ lines.length := by omega
  have htn : (((lines.length : ℤ) - 1)).toNat = lines.length - 1 := by omega
  refine ⟨?_, ?_, ?_⟩
  · cases oldE <;> cases oldT <;> cases newE <;> cases newT <;>
      simp [boundary_reseat_condition, find_nextline_flag]
  · intro hred
    have hred' : p.nu_cmf < (lines.getD (lines.length - 1) default).nu := hred
    have hanti : nuAt lines (lines.length - 1) ≤ nuAt lines p.next_trans.toNat :=
      nuAt_anti hs (by omega) (by omega)
    have hshort : ¬((lines.getD p.next_trans.toNat default).nu ≤ p.nu_cmf) := by
      intro hc
      have hnu : nuAt lines p.next_trans.toNat ≤ p.nu_cmf := hc
      linarith
    simp only [closest_transition_empty, htn]
    rw [if_neg hshort, if_neg (show ¬(p.next_trans > (lines.length : ℤ) - 1) by omega),
      if_pos hred']
    have hdrop : lines.drop (((lines.length : ℤ) + 1)).toNat = [] := by
      apply List.drop_eq_nil_of_le
      omega
    simp only [lowerBoundIdx, hdrop, lbCount]
    omega
  · intro hred
    have hred' : ¬(p.nu_cmf < (lines.getD (lines.length - 1) default).nu) := by
      intro hc
      have hnu : p.nu_cmf < nuAt lines (lines.length - 1) := hc
      linarith
    simp only [closest_transition_empty, htn]
    by_cases hshort : (lines.getD p.next_trans.toNat default).nu ≤ p.nu_cmf
    · rw [if_pos hshort]
      refine ⟨p.next_trans.toNat, by omega, by omega, by omega, ?_, ?_⟩
      · exact hshort
      · intro j hj1 hj2
        omega
    · rw [if_neg hshort, if_neg (show ¬(p.next_trans > (lines.length : ℤ) - 1) by omega),
        if_neg hred']
      have hlt : lowerBoundIdx lines p.next_trans.toNat p.nu_cmf < lines.length :=
        lowerBoundIdx_lt_len_of lines p.next_trans.toNat p.nu_cmf (by omega) hlen hred
      refine ⟨lowerBoundIdx lines p.next_trans.toNat p.nu_cmf, rfl, ?_, hlt, ?_, ?_⟩
      · have := lowerBoundIdx_ge lines p.next_trans.toNat p.nu_cmf
        omega
      · exact lowerBoundIdx_at lines _ _ hlt
      · intro j hj1 hj2
        exact lowerBoundIdx_before lines _ _ j (by omega) hj2

/-- Witness for the amended C5 on a concrete three-line list with a packet
entering mid-list. -/
theorem C5_reseat_amended_witness :
    DescSorted [(⟨5, 0, 0, 0, 0⟩ : Line), ⟨3, 0, 0, 0, 0⟩, ⟨1, 0, 0, 0, 0⟩] ∧
    (∃ i : ℕ,
      (closest_transition_empty [(⟨5, 0, 0, 0, 0⟩ : Line), ⟨3, 0, 0, 0, 0⟩, ⟨1, 0, 0, 0, 0⟩]
        { pktW with nu_cmf := 2, next_trans := 1 }).next_trans = (i : ℤ) ∧
      ({ pktW with nu_cmf := 2, next_trans := 1 } : Packet).next_trans ≤ (i : ℤ) ∧
      i < 3 ∧
      nuAt [(⟨5, 0, 0, 0, 0⟩ : Line), ⟨3, 0, 0, 0, 0⟩, ⟨1, 0, 0, 0, 0⟩] i ≤ 2 ∧
      ∀ j : ℕ, ({ pktW with nu_cmf := 2, next_trans := 1 } : Packet).next_trans ≤ (j : ℤ) →
        j < i →
        (2 : ℚ) < nuAt [(⟨5, 0, 0, 0, 0⟩ : Line), ⟨3, 0, 0, 0, 0⟩, ⟨1, 0, 0, 0, 0⟩] j) := by
  refine ⟨by norm_num [DescSorted], ?_⟩
  have h := (C5_reseat_amended false false false false
    [(⟨5, 0, 0, 0, 0⟩ : Line), ⟨3, 0, 0, 0, 0⟩, ⟨1, 0, 0, 0, 0⟩]
    { pktW with nu_cmf := 2, next_trans := 1 }
    (by norm_num [DescSorted]) (by norm_num [pktW]) (by norm_num [pktW])).2.2
  exact h (by norm_num [nuAt, pktW])

/-- Modelled from the spec: relativistic aberration of angles taking a
comoving-frame direction to the rest frame (the vector utilities file is not
part of the source snapshot); the Lorentz gamma factor applies the abstract
square root to 1 - v^2/c^2. -/
def angle_ab (rsqrt : ℚ → ℚ) (dir1 vel : Vec3) : Vec3 :=
  let vsqr := dot vel vel / (CLIGHT * CLIGHT)
  let gamma_rel := 1 / rsqrt (1 - vsqr)
  let ndotv := dot dir1 vel
  let fact1 := gamma_rel * (1 - ndotv / CLIGHT)
  let fact2 := (gamma_rel - gamma_rel * gamma_rel * ndotv / (gamma_rel + 1) / CLIGHT) / CLIGHT
  ⟨(dir1.x - vel.x * fact2) / fact1,
   (dir1.y - vel.y * fact2) / fact1,
   (dir1.z - vel.z * fact2) / fact1⟩

/-- New rest-frame direction assigned by emitt_rpkt: the isotropically
sampled comoving direction (an RNG draw supplied by the environment),
aberrated to the rest frame with the backwards flow velocity. -/
def emitt_dir (env : Env) (p : Packet) : Vec3 :=
  angle_ab env.rsqrt env.rand_dir (get_velocity p.pos (-1 * p.prop_time))

/-- Raw polarization reference vector of emitt_rpkt: the cross product of the
new direction with the z axis, or with the y axis when the former is
degenerate (squared length below 1e-8). -/
def emitt_polraw (env : Env) (p : Packet) : Vec3 :=
  if dot (cross_prod (emitt_dir env p) ⟨0, 0, 1⟩)
      (cross_prod (emitt_dir env p) ⟨0, 0, 1⟩) < 1e-8 then
    cross_prod (emitt_dir env p) ⟨0, 1, 0⟩
  else cross_prod (emitt_dir env p) ⟨0, 0, 1⟩

/-- Embedding of emitt_rpkt: make the packet an r-packet, allow all further
crossings, assign the aberrated isotropic direction, recompute the rest-frame
frequency and energy from the comoving values through the Doppler factor at
the new direction, and reset the polarization state. -/
def emitt_rpkt (env : Env) (p : Packet) : Packet :=
  let p2 : Packet := { p with ptype := TYPE_RPKT, last_cross := NONE, dir := emitt_dir env p }
  let dopplerfactor := doppler_packet_nucmf_on_nurf p2
  { p2 with
    nu_rf := p2.nu_cmf / dopplerfactor,
    e_rf := p2.e_cmf / dopplerfactor,
    stokes := ⟨1, 0, 0⟩,
    pol_dir := vec_norm env.rsqrt (emitt_polraw env p) }

/-- Modelled from the spec: coherent electron scattering re-emits the packet
isotropically in the comoving frame exactly as the thick-cell handler does
(the polarization source file with the Thomson angular sampling is not part
of the source snapshot); the comoving frequency is conserved. -/
def escat_rpkt (env : Env) (p : Packet) : Packet :=
  emitt_rpkt env p

/-- Embedding of rpkt_event_continuum: multiply the cached comoving opacities
by the Doppler factor, then select electron scattering, free-free conversion
to a k-packet, or bound-free absorption by comparing the scaled random draw
against the partial sums; the bound-free channel is sampled by a lower-bound
search of the cumulative kappa_bf_sum scratch, and the upper-ion macro-atom
activation is chosen with probability nu_edge/nu.  The failed assertions and
the final probability miss abort the program (None). -/
def rpkt_event_continuum (env : Env) (zrand zrand2 zrand3 : ℚ) (p : Packet)
    (kcont : RpktContOpacity) (scratch : List ℚ) (_mgi : ℤ) : Option Packet :=
  let nu := p.nu_cmf
  let dopplerfactor := doppler_packet_nucmf_on_nurf p
  let kappa_cont := kcont.total * dopplerfactor
  let sigma := kcont.es * dopplerfactor
  let kappa_ff := kcont.ff * dopplerfactor
  let kappa_bf := kcont.bf * dopplerfactor
  if zrand * kappa_cont < sigma then
    let p1 : Packet := { p with
      interactions := p.interactions + 1,
      nscatterings := p.nscatterings + 1,
      last_event := 12 }
    let p2 := escat_rpkt env p1
    some { p2 with em_pos := p2.pos, em_time := p2.prop_time }
  else if zrand * kappa_cont < sigma + kappa_ff then
    some { p with
      interactions := p.interactions + 1,
      last_event := 5,
      ptype := TYPE_KPKT,
      absorptiontype := -1 }
  else if zrand * kappa_cont < sigma + kappa_ff + kappa_bf then
    if scratch.getD (env.allcont.length - 1) 0 = kcont.bf then
      if hidx : lbCount (fun x => decide (x < zrand2 * kcont.bf))
          (scratch.take (env.allcont.length - 1)) < env.allcont.length then
        let e := env.allcont.getD
          (lbCount (fun x => decide (x < zrand2 * kcont.bf))
            (scratch.take (env.allcont.length - 1))) default
        if zrand3 < e.nu_edge / nu then
          some { p with
            absorptiontype := -2,
            interactions := p.interactions + 1,
            last_event := 3,
            ptype := TYPE_MA,
            mas_element := e.element,
            mas_ion := e.ion + 1,
            mas_level := env.get_phixsupperlevel e.element e.ion e.level e.phixstargetindex,
            mas_activatingline := -99 }
        else
          some { p with
            absorptiontype := -2,
            interactions := p.interactions + 1,
            last_event := 4,
            ptype := TYPE_KPKT }
      else none
    else none
  else none

/-- C7: in rpkt_event_continuum, with the cached comoving opacities each
multiplied by the same Doppler factor, the scaled uniform draw is compared
against the partial sums: below kappa_es the packet undergoes coherent
electron scattering (it stays an r-packet with nu_cmf unchanged); below
kappa_es + kappa_ff it becomes a k-packet with absorptiontype -1; below
kappa_es + kappa_ff + kappa_bf a bound-free channel j is sampled by a
lower-bound search of the cumulative kappa_bf_sum scratch, after which the
packet becomes a macro-atom in the upper ion (ion + 1, phixs upper level)
when the fresh draw is below nu_edge/nu and a k-packet otherwise; and when
none of the three comparisons holds the program aborts. -/
theorem C7_continuum_event_dispatch (env : Env) (zrand zrand2 zrand3 : ℚ)
    (p : Packet) (kcont : RpktContOpacity) (scratch : List ℚ) (mgi : ℤ) :
    (zrand * (kcont.total * doppler_packet_nucmf_on_nurf p) <
        kcont.es * doppler_packet_nucmf_on_nurf p →
      ∃ q, rpkt_event_continuum env zrand zrand2 zrand3 p kcont scratch mgi = some q ∧
        q.ptype = TYPE_RPKT ∧ q.nu_cmf = p.nu_cmf) ∧
    (¬(zrand * (kcont.total * doppler_packet_nucmf_on_nurf p) <
        kcont.es * doppler_packet_nucmf_on_nurf p) →
      zrand * (kcont.total * doppler_packet_nucmf_on_nurf p) <
        kcont.es * doppler_packet_nucmf_on_nurf p +
        kcont.ff * doppler_packet_nucmf_on_nurf p →
      ∃ q, rpkt_event_continuum env zrand zrand2 zrand3 p kcont scratch mgi = some q ∧
        q.ptype = TYPE_KPKT ∧ q.absorptiontype = -1) ∧
    (¬(zrand * (kcont.total * doppler_packet_nucmf_on_nurf p) <
        kcont.es * doppler_packet_nucmf_on_nurf p) →
      ¬(zrand * (kcont.total * doppler_packet_nucmf_on_nurf p) <
        kcont.es * doppler_packet_nucmf_on_nurf p +
        kcont.ff * doppler_packet_nucmf_on_nurf p) →
      zrand * (kcont.total * doppler_packet_nucmf_on_nurf p) <
        kcont.es * doppler_packet_nucmf_on_nurf p +
        kcont.ff * doppler_packet_nucmf_on_nurf p +
        kcont.bf * doppler_packet_nucmf_on_nurf p →
      scratch.getD (env.allcont.length - 1) 0 = kcont.bf →
      0 < env.allcont.length →
      (zrand3 < (env.allcont.getD
          (lbCount (fun x => decide (x < zrand2 * kcont.bf))
            (scratch.take (env.allcont.length - 1))) default).nu_edge / p.nu_cmf →
        ∃ q, rpkt_event_continuum env zrand zrand2 zrand3 p kcont scratch mgi = some q ∧
          q.ptype = TYPE_MA ∧
          q.mas_ion = (env.allcont.getD
            (lbCount (fun x => decide (x < zrand2 * kcont.bf))
              (scratch.take (env.allcont.length - 1))) default).ion + 1 ∧
          q.mas_level = env.get_phixsupperlevel
            (env.allcont.getD (lbCount (fun x => decide (x < zrand2 * kcont.bf))
              (scratch.take (env.allcont.length - 1))) default).element
            (env.allcont.getD (lbCount (fun x => decide (x < zrand2 * kcont.bf))
              (scratch.take (env.allcont.length - 1))) default).ion
            (env.allcont.getD (lbCount (fun x => decide (x < zrand2 * kcont.bf))
              (scratch.take (env.allcont.length - 1))) default).level
            (env.allcont.getD (lbCount (fun x => decide (x < zrand2 * kcont.bf))
              (scratch.take (env.allcont.length - 1))) default).phixstargetindex) ∧
      (¬(zrand3 < (env.allcont.getD
          (lbCount (fun x => decide (x < zrand2 * kcont.bf))
            (scratch.take (env.allcont.length - 1))) default).nu_edge / p.nu_cmf) →
        ∃ q, rpkt_event_continuum env zrand zrand2 zrand3 p kcont scratch mgi = some q ∧
          q.ptype = TYPE_KPKT ∧ q.absorptiontype = -2)) ∧
    (¬(zrand * (kcont.total * doppler_packet_nucmf_on_nurf p) <
        kcont.es * doppler_packet_nucmf_on_nurf p) →
      ¬(zrand * (kcont.total * doppler_packet_nucmf_on_nurf p) <
        kcont.es * doppler_packet_nucmf_on_nurf p +
        kcont.ff * doppler_packet_nucmf_on_nurf p) →
      ¬(zrand * (kcont.total * doppler_packet_nucmf_on_nurf p) <
        kcont.es * doppler_packet_nucmf_on_nurf p +
        kcont.ff * doppler_packet_nucmf_on_nurf p +
        kcont.bf * doppler_packet_nucmf_on_nurf p) →
      rpkt_event_continuum env zrand zrand2 zrand3 p kcont scratch mgi = none) := by
  refine ⟨?_, ?_, ?_, ?_⟩
  · intro h1
    simp only [rpkt_event_continuum]
    rw [if_pos h1]
    exact ⟨_, rfl, rfl, rfl⟩
  · intro h1 h2
    simp only [rpkt_event_continuum]
    rw [if_neg h1, if_pos h2]
    exact ⟨_, rfl, rfl, rfl⟩
  · intro h1 h2 h3 hscr hn
    have hidx : lbCount (fun x => decide (x < zrand2 * kcont.bf))
        (scratch.take (env.allcont.length - 1)) < env.allcont.length := by
      have hle := lbCount_le (fun x => decide (x < zrand2 * kcont.bf))
        (scratch.take (env.allcont.length - 1))
      have hlt : (scratch.take (env.allcont.length - 1)).length ≤ env.allcont.length - 1 := by
        simp [List.length_take]
      omega
    constructor
    · intro h4
      simp only [rpkt_event_continuum]
      rw [if_neg h1, if_neg h2, if_pos h3, if_pos hscr, dif_pos hidx, if_pos h4]
      exact ⟨_, rfl, rfl, rfl, rfl⟩
    · intro h4
      simp only [rpkt_event_continuum]
      rw [if_neg h1, if_neg h2, if_pos h3, if_pos hscr, dif_pos hidx, if_neg h4]
      exact ⟨_, rfl, rfl, rfl⟩
  · intro h1 h2 h3
    simp only [rpkt_event_continuum]
    rw [if_neg h1, if_neg h2, if_neg h3]

/-- Witness for C7 at the electron-scattering branch with a concrete cache
whose continuum opacity is pure Thomson. -/
theorem C7_continuum_event_dispatch_witness :
    (0 : ℚ) * ((⟨0, 0, false, 1, 1, 0, 0, 0⟩ : RpktContOpacity).total *
        doppler_packet_nucmf_on_nurf pktW) <
      (⟨0, 0, false, 1, 1, 0, 0, 0⟩ : RpktContOpacity).es *
        doppler_packet_nucmf_on_nurf pktW ∧
    ∃ q, rpkt_event_continuum envW 0 0 0 pktW ⟨0, 0, false, 1, 1, 0, 0, 0⟩ [] 0 = some q ∧
      q.ptype = TYPE_RPKT ∧ q.nu_cmf = pktW.nu_cmf := by
  have hc : (0 : ℚ) * ((⟨0, 0, false, 1, 1, 0, 0, 0⟩ : RpktContOpacity).total *
      doppler_packet_nucmf_on_nurf pktW) <
      (⟨0, 0, false, 1, 1, 0, 0, 0⟩ : RpktContOpacity).es *
        doppler_packet_nucmf_on_nurf pktW := by
    norm_num [doppler_packet_nucmf_on_nurf, doppler_nucmf_on_nurf, get_velocity,
      vscale, dot, pktW, CLIGHT]
  exact ⟨hc, (C7_continuum_event_dispatch envW 0 0 0 pktW
    ⟨0, 0, false, 1, 1, 0, 0, 0⟩ [] 0).1 hc⟩

lemma CLIGHT_pos : (0 : ℚ) < CLIGHT := by norm_num [CLIGHT]

/-- The cross product is orthogonal to its first factor. -/
lemma cross_dot_self (a b : Vec3) : dot (cross_prod a b) a = 0 := by
  simp only [cross_prod, dot]
  ring

/-- Lagrange identity for the squared length of a cross product. -/
lemma cross_norm_sq (a b : Vec3) :
    dot (cross_prod a b) (cross_prod a b) = dot a a * dot b b - dot a b ^ 2 := by
  simp only [cross_prod, dot]
  ring

/-- Cauchy-Schwarz for the 3-vector dot product. -/
lemma cauchy_schwarz_vec (a b : Vec3) : dot a b ^ 2 ≤ dot a a * dot b b := by
  simp only [dot]
  nlinarith [sq_nonneg (a.x * b.y - a.y * b.x), sq_nonneg (a.x * b.z - a.z * b.x),
    sq_nonneg (a.y * b.z - a.z * b.y)]

/-- The relativistic aberration of a unit direction by a subluminal velocity
is exactly a unit direction, provided the abstract square root satisfies its
defining property at the Lorentz-factor argument. -/
lemma angle_ab_unit (rsqrt : ℚ → ℚ) (dir1 vel : Vec3)
    (h1 : dot dir1 dir1 = 1)
    (hv : dot vel vel < CLIGHT * CLIGHT)
    (hr0 : 0 ≤ rsqrt (1 - dot vel vel / (CLIGHT * CLIGHT)))
    (hr2 : rsqrt (1 - dot vel vel / (CLIGHT * CLIGHT)) ^ 2 =
      1 - dot vel vel / (CLIGHT * CLIGHT)) :
    dot (angle_ab rsqrt dir1 vel) (angle_ab rsqrt dir1 vel) = 1 := by
  have hc : (0 : ℚ) < CLIGHT := CLIGHT_pos
  have hc2 : (0 : ℚ) < CLIGHT * CLIGHT := mul_pos hc hc
  have hcne : (CLIGHT : ℚ) ≠ 0 := ne_of_gt hc
  have hcs := cauchy_schwarz_vec dir1 vel
  simp only [angle_ab]
  generalize hv2g : dot vel vel = v2 at *
  generalize hwg : dot dir1 vel = w at *
  rw [h1, one_mul] at hcs
  simp only [dot]
  set r := rsqrt (1 - v2 / (CLIGHT * CLIGHT)) with hrdef
  have hrpos : 0 < r := by
    rcases lt_or_eq_of_le hr0 with h | h
    · exact h
    · exfalso
      have hb : v2 / (CLIGHT * CLIGHT) < 1 := (div_lt_one hc2).mpr hv
      have h0 : (0 : ℚ) = 1 - v2 / (CLIGHT * CLIGHT) := by
        rw [← hr2, ← h]
        norm_num
      linarith
  have hrne : r ≠ 0 := ne_of_gt hrpos
  have hr1ne : 1 + r ≠ 0 := by positivity
  have hwc : w < CLIGHT := by
    by_contra hcon
    push_neg at hcon
    nlinarith
  have hfne : 1 - w / CLIGHT ≠ 0 := by
    have hlt : w / CLIGHT < 1 := (div_lt_one hc).mpr hwc
    intro hcon
    rw [sub_eq_zero] at hcon
    rw [← hcon] at hlt
    exact lt_irrefl _ hlt
  have hv2eq : v2 = (1 - r ^ 2) * (CLIGHT * CLIGHT) := by
    have h2 : r ^ 2 * (CLIGHT * CLIGHT) = CLIGHT * CLIGHT - v2 := by
      rw [hr2]
      field_simp
    linear_combination h2
  set F2 : ℚ := (1 / r - 1 / r * (1 / r) * w / (1 / r + 1) / CLIGHT) / CLIGHT with hF2def
  set F1 : ℚ := 1 / r * (1 - w / CLIGHT) with hF1def
  have hF1ne : F1 ≠ 0 := by
    rw [hF1def]
    exact mul_ne_zero (one_div_ne_zero hrne) hfne
  have hexp : (dir1.x - vel.x * F2) / F1 * ((dir1.x - vel.x * F2) / F1) +
      (dir1.y - vel.y * F2) / F1 * ((dir1.y - vel.y * F2) / F1) +
      (dir1.z - vel.z * F2) / F1 * ((dir1.z - vel.z * F2) / F1) =
      ((dir1.x * dir1.x + dir1.y * dir1.y + dir1.z * dir1.z) -
        2 * F2 * (dir1.x * vel.x + dir1.y * vel.y + dir1.z * vel.z) +
        F2 ^ 2 * (vel.x * vel.x + vel.y * vel.y + vel.z * vel.z)) / F1 ^ 2 := by
    field_simp
    ring
  have h1c : dir1.x * dir1.x + dir1.y * dir1.y + dir1.z * dir1.z = 1 := h1
  have hwc2 : dir1.x * vel.x + dir1.y * vel.y + dir1.z * vel.z = w := hwg
  have hv2c : vel.x * vel.x + vel.y * vel.y + vel.z * vel.z = v2 := hv2g
  rw [hexp, h1c, hwc2, hv2c, div_eq_one_iff_eq (pow_ne_zero 2 hF1ne)]
  rw [hF2def, hF1def, hv2eq]
  have hrr : 1 / r + 1 ≠ 0 := by positivity
  field_simp
  ring

/-- C9: after emitt_rpkt the packet is an r-packet with last_cross cleared,
its comoving frequency and energy unchanged, its rest-frame frequency and
energy recomputed from the comoving values through the Doppler factor at the
new state, its new direction exactly unit (so the 1e-8 unit-length assertion
holds), the Stokes vector reset to (1, 0, 0), and pol_dir the normalized
cross product of the new direction with the z axis (or the y axis when the
former is degenerate), a unit vector orthogonal to the new direction.  The
square-root hypotheses state the defining property of the abstract sqrt at
the three evaluation points; the unit comoving direction is the contract of
the isotropic RNG draw. -/
theorem C9_emitt_rpkt_postconditions (env : Env) (p : Packet)
    (hdir : dot env.rand_dir env.rand_dir = 1)
    (hv : dot (get_velocity p.pos (-1 * p.prop_time))
        (get_velocity p.pos (-1 * p.prop_time)) < CLIGHT * CLIGHT)
    (hr0 : 0 ≤ env.rsqrt (1 - dot (get_velocity p.pos (-1 * p.prop_time))
        (get_velocity p.pos (-1 * p.prop_time)) / (CLIGHT * CLIGHT)))
    (hr2 : env.rsqrt (1 - dot (get_velocity p.pos (-1 * p.prop_time))
        (get_velocity p.pos (-1 * p.prop_time)) / (CLIGHT * CLIGHT)) ^ 2 =
      1 - dot (get_velocity p.pos (-1 * p.prop_time))
        (get_velocity p.pos (-1 * p.prop_time)) / (CLIGHT * CLIGHT))
    (hs1 : env.rsqrt 1 = 1)
    (hp0 : 0 ≤ env.rsqrt (dot (emitt_polraw env p) (emitt_polraw env p)))
    (hp2 : env.rsqrt (dot (emitt_polraw env p) (emitt_polraw env p)) ^ 2 =
      dot (emitt_polraw env p) (emitt_polraw env p)) :
    (emitt_rpkt env p).ptype = TYPE_RPKT ∧
    (emitt_rpkt env p).last_cross = NONE ∧
    (emitt_rpkt env p).nu_cmf = p.nu_cmf ∧
    (emitt_rpkt env p).e_cmf = p.e_cmf ∧
    (emitt_rpkt env p).nu_rf =
      (emitt_rpkt env p).nu_cmf / doppler_packet_nucmf_on_nurf (emitt_rpkt env p) ∧
    (emitt_rpkt env p).e_rf =
      (emitt_rpkt env p).e_cmf / doppler_packet_nucmf_on_nurf (emitt_rpkt env p) ∧
    dot (emitt_rpkt env p).dir (emitt_rpkt env p).dir = 1 ∧
    |vec_len env.rsqrt (emitt_rpkt env p).dir - 1| < 1e-8 ∧
    (emitt_rpkt env p).stokes = ⟨1, 0, 0⟩ ∧
    (emitt_rpkt env p).pol_dir = vec_norm env.rsqrt (emitt_polraw env p) ∧
    dot (emitt_rpkt env p).pol_dir (emitt_rpkt env p).dir = 0 ∧
    dot (emitt_rpkt env p).pol_dir (emitt_rpkt env p).pol_dir = 1 := by
  have hunit : dot (emitt_dir env p) (emitt_dir env p) = 1 :=
    angle_ab_unit env.rsqrt env.rand_dir (get_velocity p.pos (-1 * p.prop_time))
      hdir hv hr0 hr2
  have hPRpos : 0 < dot (emitt_polraw env p) (emitt_polraw env p) := by
    unfold emitt_polraw
    split_ifs with hdeg
    · rw [cross_norm_sq] at hdeg ⊢
      rw [hunit, one_mul] at hdeg ⊢
      have hzz : dot (⟨0, 0, 1⟩ : Vec3) (⟨0, 0, 1⟩ : Vec3) = 1 := by norm_num [dot]
      have hyy : dot (⟨0, 1, 0⟩ : Vec3) (⟨0, 1, 0⟩ : Vec3) = 1 := by norm_num [dot]
      have hdz : dot (emitt_dir env p) (⟨0, 0, 1⟩ : Vec3) = (emitt_dir env p).z := by
        simp [dot]
      have hdy : dot (emitt_dir env p) (⟨0, 1, 0⟩ : Vec3) = (emitt_dir env p).y := by
        simp [dot]
      rw [hzz, hdz] at hdeg
      rw [hyy, hdy]
      have hcomp : (emitt_dir env p).x * (emitt_dir env p).x +
          (emitt_dir env p).y * (emitt_dir env p).y +
          (emitt_dir env p).z * (emitt_dir env p).z = 1 := hunit
      nlinarith [sq_nonneg (emitt_dir env p).x]
    · push_neg at hdeg
      have h8 : (0 : ℚ) < 1e-8 := by norm_num
      linarith
  have hLpos : 0 < env.rsqrt (dot (emitt_polraw env p) (emitt_polraw env p)) := by
    rcases lt_or_eq_of_le hp0 with h | h
    · exact h
    · exfalso
      rw [← h] at hp2
      have h0 : (0 : ℚ) ^ 2 = 0 := by norm_num
      rw [h0] at hp2
      linarith
  have hLne : env.rsqrt (dot (emitt_polraw env p) (emitt_polraw env p)) ≠ 0 :=
    ne_of_gt hLpos
  have hPRd : dot (emitt_polraw env p) (emitt_dir env p) = 0 := by
    unfold emitt_polraw
    split_ifs
    · exact cross_dot_self _ _
    · exact cross_dot_self _ _
  refine ⟨rfl, rfl, rfl, rfl, rfl, rfl, hunit, ?_, rfl, rfl, ?_, ?_⟩
  · have hlen : vec_len env.rsqrt (emitt_rpkt env p).dir = 1 := by
      have hq : dot (emitt_rpkt env p).dir (emitt_rpkt env p).dir = 1 := hunit
      unfold vec_len
      rw [hq, hs1]
    rw [hlen]
    norm_num
  · have hq : (emitt_rpkt env p).pol_dir = vec_norm env.rsqrt (emitt_polraw env p) := rfl
    have hqd : (emitt_rpkt env p).dir = emitt_dir env p := rfl
    rw [hq, hqd]
    have hexp : dot (vec_norm env.rsqrt (emitt_polraw env p)) (emitt_dir env p) =
        dot (emitt_polraw env p) (emitt_dir env p) /
          env.rsqrt (dot (emitt_polraw env p) (emitt_polraw env p)) := by
      simp only [vec_norm, vec_len, dot]
      ring
    rw [hexp, hPRd, zero_div]
  · have hq : (emitt_rpkt env p).pol_dir = vec_norm env.rsqrt (emitt_polraw env p) := rfl
    rw [hq]
    have hexp : dot (vec_norm env.rsqrt (emitt_polraw env p))
        (vec_norm env.rsqrt (emitt_polraw env p)) =
        dot (emitt_polraw env p) (emitt_polraw env p) /
          env.rsqrt (dot (emitt_polraw env p) (emitt_polraw env p)) ^ 2 := by
      simp only [vec_norm, vec_len, dot]
      ring
    rw [hexp, hp2]
    exact div_self (ne_of_gt hPRpos)

/-- Packet used by the C9 witness: radially infalling position chosen so that
every square root evaluated by emitt_rpkt has an exact rational value. -/
def pktC9 : Packet :=
  { pktW with pos := ⟨-(3 * CLIGHT / 5), 0, 0⟩, prop_time := 1 }

/-- Witness for C9 at the concrete environment with velocity 3c/5 along x and
comoving draw along z. -/
theorem C9_emitt_rpkt_postconditions_witness :
    dot envW.rand_dir envW.rand_dir = 1 ∧
    dot (emitt_rpkt envW pktC9).dir (emitt_rpkt envW pktC9).dir = 1 ∧
    dot (emitt_rpkt envW pktC9).pol_dir (emitt_rpkt envW pktC9).dir = 0 ∧
    dot (emitt_rpkt envW pktC9).pol_dir (emitt_rpkt envW pktC9).pol_dir = 1 := by
  have h := C9_emitt_rpkt_postconditions envW pktC9
    (by norm_num [envW, dot])
    (by norm_num [get_velocity, vscale, dot, pktC9, pktW, CLIGHT])
    (by norm_num [get_velocity, vscale, dot, pktC9, pktW, envW, CLIGHT])
    (by norm_num [get_velocity, vscale, dot, pktC9, pktW, envW, CLIGHT])
    (by norm_num [envW])
    (by norm_num [emitt_polraw, emitt_dir, angle_ab, get_velocity, vscale, dot,
      cross_prod, pktC9, pktW, envW, CLIGHT])
    (by norm_num [emitt_polraw, emitt_dir, angle_ab, get_velocity, vscale, dot,
      cross_prod, pktC9, pktW, envW, CLIGHT])
  exact ⟨by norm_num [envW, dot], h.2.2.2.2.2.2.1, h.2.2.2.2.2.2.2.2.2.2.1,
    h.2.2.2.2.2.2.2.2.2.2.2⟩

end Artis
